import Mathlib

/-!
# Verification of the retrieval-and-fusion engine

A shallow embedding, in Lean 4, of the core retrieval code of the
`chatbot_ai` repository:

* `rag/src/retrieval/vector-search.ts` — `VectorSearchService`
  (`search`, `hybridSearch`, `keywordSearch`, `mergeAndRerankResults`,
  `buildFilterStages`);
* `rag/src/indexing/document-processor.ts` — `DocumentProcessor`
  (`processAuditFinding`, `extractSections`, `chunkText`,
  `enrichChunkContext`, `splitIntoSentences`, `estimateTokens`,
  `getOverlapSentences`).

JavaScript strings are modelled as `List Char` (named `Str`); numeric
scores as `ℚ`.  The MongoDB aggregation stages the code builds are given
their documented list semantics over an abstract store response, and the
store itself (the `$vectorSearch` index, the `$text` index and the
embedding provider) is an arbitrary environment parameter, so every
theorem quantifies over all possible store answers.
-/

/-- A JavaScript string, modelled as its list of characters. -/
abbrev Str := List Char

/-- Character list of a Lean string literal (used for concrete inputs). -/
def str (s : String) : Str := s.toList

/-- The `metadata` payload of a `SearchResult`
(`vector-search.ts`, interface `SearchResult`). -/
structure SearchMetadata where
  protocol : Str
  impact : Str
  title : Str
  «section» : Str
  source_link : Str
  firm : Str
deriving DecidableEq, Repr, Inhabited

/-- One retrieval candidate (`vector-search.ts`, interface `SearchResult`):
document identity, display text, channel score and metadata snapshot. -/
structure SearchResult where
  id : Str
  text : Str
  score : ℚ
  metadata : SearchMetadata
deriving DecidableEq, Repr, Inhabited

/-! ## Fusion engine (`mergeAndRerankResults`) -/

/-- The value type stored in the JS `Map` of `mergeAndRerankResults`:
`{ result: SearchResult; rrfScore: number }`. -/
structure RRFEntry where
  result : SearchResult
  rrfScore : ℚ
deriving DecidableEq, Repr, Inhabited

/-- The accumulator `scoreMap : Map<string, {result, rrfScore}>`,
modelled as an insertion-ordered association list (JS `Map` iteration
order is insertion order). -/
abbrev ScoreMap := List (Str × RRFEntry)

/-- JS `Map.prototype.set`: replace the value in place when the key is
present (the key keeps its original insertion position), append otherwise. -/
def mapSet (m : ScoreMap) (key : Str) (v : RRFEntry) : ScoreMap :=
  match m with
  | [] => [(key, v)]
  | (k, e) :: rest =>
      if k = key then (k, v) :: rest else (k, e) :: mapSet rest key v

/-- The in-place mutation `existing.rrfScore += rrfScore` performed on the
entry stored under `key` (no-op when the key is absent). -/
def mapAddScore (m : ScoreMap) (key : Str) (q : ℚ) : ScoreMap :=
  match m with
  | [] => []
  | (k, e) :: rest =>
      if k = key then (k, ⟨e.result, e.rrfScore + q⟩) :: rest
      else (k, e) :: mapAddScore rest key q

/-- JS `Map.prototype.has`. -/
def mapHas (m : ScoreMap) (key : Str) : Bool :=
  m.any (fun p => p.1 = key)

/-- JS `Map.prototype.get` (as an `Option`). -/
def mapLookup : ScoreMap → Str → Option RRFEntry
  | [], _ => none
  | (k, e) :: rest, key => if k = key then some e else mapLookup rest key

/-- The RRF constant `k = 60` of `mergeAndRerankResults`. -/
def rrfK : ℚ := 60

/-- `1 / (k + rank + 1)` — the reciprocal-rank contribution computed for a
candidate at zero-based `rank`. -/
def rrfScoreAt (rank : ℕ) : ℚ := 1 / (rrfK + rank + 1)

/-- The first `forEach` loop of `mergeAndRerankResults`: each vector
candidate is `set` into the map under its id (overwriting any entry a
previous vector candidate with the same id created). -/
def insertVectorResults : List SearchResult → ℕ → ScoreMap → ScoreMap
  | [], _, m => m
  | r :: rs, rank, m =>
      insertVectorResults rs (rank + 1) (mapSet m r.id ⟨r, rrfScoreAt rank⟩)

/-- The second `forEach` loop of `mergeAndRerankResults`: a keyword
candidate whose id is already present only adds its contribution to the
stored score; otherwise it is `set` as a new entry. -/
def insertKeywordResults : List SearchResult → ℕ → ScoreMap → ScoreMap
  | [], _, m => m
  | r :: rs, rank, m =>
      insertKeywordResults rs (rank + 1)
        (if mapHas m r.id then mapAddScore m r.id (rrfScoreAt rank)
         else mapSet m r.id ⟨r, rrfScoreAt rank⟩)

/-- The fully populated `scoreMap` after both loops. -/
def fusionAccumulator (vectorResults keywordResults : List SearchResult) : ScoreMap :=
  insertKeywordResults keywordResults 0 (insertVectorResults vectorResults 0 [])

/-- The comparator `(a, b) => b.rrfScore - a.rrfScore` of the final
`Array.prototype.sort` call: `a` may precede `b` iff the comparator is
`≤ 0`, i.e. `b.rrfScore ≤ a.rrfScore`. -/
def fusedGE (a b : RRFEntry) : Prop := b.rrfScore ≤ a.rrfScore

instance : DecidableRel fusedGE :=
  fun a b => inferInstanceAs (Decidable (b.rrfScore ≤ a.rrfScore))

instance : IsTotal RRFEntry fusedGE :=
  ⟨fun a b => le_total b.rrfScore a.rrfScore⟩

instance : IsTrans RRFEntry fusedGE :=
  ⟨fun _ _ _ h1 h2 => le_trans h2 h1⟩

/-- `mergeAndRerankResults(vectorResults, keywordResults, topK)`
(`vector-search.ts`, lines 193–230): populate the score map from both
lists, sort its values descending by fused score (JS `sort` is stable;
`List.insertionSort` with this relation computes exactly the stable
descending reordering), truncate to `topK` and replace each kept
candidate's `score` by its fused score. -/
def mergeAndRerankResults (vectorResults keywordResults : List SearchResult)
    (topK : ℕ) : List SearchResult :=
  let scoreMap := fusionAccumulator vectorResults keywordResults
  ((((scoreMap.map Prod.snd).insertionSort fusedGE).take topK).map
    (fun e => { e.result with score := e.rrfScore }))

/-! ## Characterizing the accumulator -/

/-- Keys of the score map, in insertion order. -/
def mapKeys (m : ScoreMap) : List Str := m.map Prod.fst

/-- The last occurrence (with its reciprocal-rank contribution) of a given
document id in the vector list, ranks counted from `rank`.  This is what
the first `forEach` loop leaves in the map: later `set` calls on the same
key overwrite earlier ones. -/
def vectorLast : List SearchResult → Str → ℕ → Option (SearchResult × ℚ)
  | [], _, _ => none
  | r :: rs, id, rank =>
      match vectorLast rs id (rank + 1) with
      | some p => some p
      | none => if r.id = id then some (r, rrfScoreAt rank) else none

/-- Total reciprocal-rank contribution of all occurrences of a given id in
the keyword list, ranks counted from `rank`. -/
def keywordSum : List SearchResult → Str → ℕ → ℚ
  | [], _, _ => 0
  | r :: rs, id, rank =>
      (if r.id = id then rrfScoreAt rank else 0) + keywordSum rs id (rank + 1)

/-- First occurrence of a given id in the keyword list. -/
def keywordFirst (keywordResults : List SearchResult) (id : Str) : Option SearchResult :=
  keywordResults.find? (fun r => decide (r.id = id))

/-- The candidate whose display payload the fusion keeps for a given id:
the last vector-list occurrence when the id appears there, otherwise the
first keyword-list occurrence. -/
def keptCandidate (vectorResults keywordResults : List SearchResult) (id : Str) :
    Option SearchResult :=
  match vectorLast vectorResults id 0 with
  | some (r, _) => some r
  | none => keywordFirst keywordResults id

/-- Zero-based rank of the first candidate bearing a given id. -/
def rankInList : List SearchResult → Str → Option ℕ
  | [], _ => none
  | r :: rs, id => if r.id = id then some 0 else (rankInList rs id).map (· + 1)

/-- Modelled from the spec: the RRF contribution of one list — `1 / (k + r + 1)`
with `k = 60` where `r` is the candidate's zero-based rank in the list, `0`
when the id is absent.  Defined from the spec's words for comparison with
the code's accumulator. -/
def rrfSpecContribution (l : List SearchResult) (id : Str) : ℚ :=
  match rankInList l id with
  | some r => 1 / (60 + (r : ℚ) + 1)
  | none => 0

lemma mapLookup_mapSet (m : ScoreMap) (key k' : Str) (v : RRFEntry) :
    mapLookup (mapSet m key v) k' = if key = k' then some v else mapLookup m k' := by
  induction m with
  | nil => simp [mapSet, mapLookup]
  | cons p rest ih =>
      obtain ⟨k, e⟩ := p
      by_cases hk : k = key
      · subst hk
        by_cases h : k = k' <;> simp [mapSet, mapLookup, h]
      · by_cases h : k = k'
        · subst h
          simp [mapSet, mapLookup, hk, Ne.symm hk]
        · simp [mapSet, mapLookup, hk, h, ih]

lemma mapLookup_mapAddScore (m : ScoreMap) (key k' : Str) (q : ℚ) :
    mapLookup (mapAddScore m key q) k' =
      if key = k' then
        (mapLookup m k').map (fun e => ⟨e.result, e.rrfScore + q⟩)
      else mapLookup m k' := by
  induction m with
  | nil => simp [mapAddScore, mapLookup]
  | cons p rest ih =>
      obtain ⟨k, e⟩ := p
      by_cases hk : k = key
      · subst hk
        by_cases h : k = k' <;> simp [mapAddScore, mapLookup, h]
      · by_cases h : k = k'
        · subst h
          simp [mapAddScore, mapLookup, hk, Ne.symm hk]
        · simp [mapAddScore, mapLookup, hk, h, ih]

lemma mapHas_eq_isSome (m : ScoreMap) (key : Str) :
    mapHas m key = (mapLookup m key).isSome := by
  induction m with
  | nil => rfl
  | cons p rest ih =>
      obtain ⟨k, e⟩ := p
      by_cases h : k = key
      · simp [mapHas, mapLookup, h]
      · simp only [mapHas, List.any_cons] at ih ⊢
        simp [mapLookup, h, ih]

lemma lookup_insertVectorResults (v : List SearchResult) (id : Str) :
    ∀ (rank : ℕ) (m : ScoreMap),
      mapLookup (insertVectorResults v rank m) id =
        match vectorLast v id rank with
        | some (r, q) => some ⟨r, q⟩
        | none => mapLookup m id := by
  induction v with
  | nil => intro rank m; simp [insertVectorResults, vectorLast]
  | cons r rs ih =>
      intro rank m
      simp only [insertVectorResults, vectorLast]
      rw [ih (rank + 1) (mapSet m r.id ⟨r, rrfScoreAt rank⟩)]
      cases h : vectorLast rs id (rank + 1) with
      | some p => obtain ⟨r', q'⟩ := p; simp
      | none =>
          by_cases hr : r.id = id <;>
            simp [mapLookup_mapSet, hr]

lemma lookup_insertKeywordResults (kres : List SearchResult) (id : Str) :
    ∀ (rank : ℕ) (m : ScoreMap),
      mapLookup (insertKeywordResults kres rank m) id =
        match mapLookup m id with
        | some e => some ⟨e.result, e.rrfScore + keywordSum kres id rank⟩
        | none => (keywordFirst kres id).map (fun r => ⟨r, keywordSum kres id rank⟩) := by
  induction kres with
  | nil =>
      intro rank m
      cases h : mapLookup m id <;>
        simp [insertKeywordResults, keywordSum, keywordFirst, h]
  | cons r rs ih =>
      intro rank m
      simp only [insertKeywordResults]
      by_cases hhas : mapHas m r.id = true
      · rw [if_pos hhas, ih (rank + 1) (mapAddScore m r.id (rrfScoreAt rank))]
        rw [mapHas_eq_isSome] at hhas
        obtain ⟨e0, he0⟩ := Option.isSome_iff_exists.mp hhas
        by_cases hr : r.id = id
        · subst hr
          rw [mapLookup_mapAddScore, if_pos rfl, he0]
          simp [keywordSum, add_assoc]
        · rw [mapLookup_mapAddScore, if_neg hr]
          cases h : mapLookup m id with
          | some e => simp [keywordSum, hr]
          | none => simp [keywordSum, keywordFirst, hr, List.find?]
      · rw [if_neg hhas, ih (rank + 1) (mapSet m r.id ⟨r, rrfScoreAt rank⟩)]
        rw [mapHas_eq_isSome] at hhas
        have hm : mapLookup m r.id = none := by
          cases h : mapLookup m r.id with
          | some e => rw [h] at hhas; simp at hhas
          | none => rfl
        by_cases hr : r.id = id
        · subst hr
          rw [mapLookup_mapSet, if_pos rfl, hm]
          simp [keywordSum, keywordFirst, List.find?]
        · rw [mapLookup_mapSet, if_neg hr]
          cases h : mapLookup m id with
          | some e => simp [keywordSum, hr]
          | none => simp [keywordSum, keywordFirst, hr, List.find?]

/-- Full characterization of the accumulated map: at key `id` it stores
the last vector occurrence's payload and contribution plus the sum of all
keyword contributions, or, failing a vector occurrence, the first keyword
occurrence's payload with the keyword contributions. -/
lemma lookup_fusionAccumulator (v kres : List SearchResult) (id : Str) :
    mapLookup (fusionAccumulator v kres) id =
      match vectorLast v id 0 with
      | some (r, q) => some ⟨r, q + keywordSum kres id 0⟩
      | none => (keywordFirst kres id).map (fun r => ⟨r, keywordSum kres id 0⟩) := by
  unfold fusionAccumulator
  rw [lookup_insertKeywordResults]
  rw [lookup_insertVectorResults]
  cases h : vectorLast v id 0 with
  | some p => obtain ⟨r, q⟩ := p; simp
  | none => simp [mapLookup]

lemma mem_mapKeys (m : ScoreMap) (key : Str) :
    key ∈ mapKeys m ↔ (mapLookup m key).isSome := by
  induction m with
  | nil => simp [mapKeys, mapLookup]
  | cons p rest ih =>
      obtain ⟨k, e⟩ := p
      by_cases h : k = key
      · subst h; simp [mapKeys, mapLookup]
      · simp only [mapKeys, List.map_cons, List.mem_cons, mapLookup, if_neg h] at ih ⊢
        simp [Ne.symm h, ih]

lemma mapKeys_mapSet (m : ScoreMap) (key : Str) (v : RRFEntry) :
    mapKeys (mapSet m key v) =
      if (mapLookup m key).isSome then mapKeys m else mapKeys m ++ [key] := by
  induction m with
  | nil => simp [mapSet, mapKeys, mapLookup]
  | cons p rest ih =>
      obtain ⟨k, e⟩ := p
      by_cases h : k = key
      · subst h; simp [mapSet, mapKeys, mapLookup]
      · cases h2 : mapLookup rest key with
        | some e2 => simp [mapSet, mapKeys, mapLookup, h, h2] at ih ⊢; simp [ih]
        | none => simp [mapSet, mapKeys, mapLookup, h, h2] at ih ⊢; simp [ih]

lemma mapKeys_mapAddScore (m : ScoreMap) (key : Str) (q : ℚ) :
    mapKeys (mapAddScore m key q) = mapKeys m := by
  induction m with
  | nil => rfl
  | cons p rest ih =>
      obtain ⟨k, e⟩ := p
      by_cases h : k = key
      · simp [mapAddScore, mapKeys, h]
      · simp [mapAddScore, mapKeys, h] at ih ⊢
        exact ih

lemma nodup_mapKeys_mapSet (m : ScoreMap) (key : Str) (v : RRFEntry)
    (hm : (mapKeys m).Nodup) : (mapKeys (mapSet m key v)).Nodup := by
  rw [mapKeys_mapSet]
  by_cases h : (mapLookup m key).isSome
  · simpa [h]
  · have : key ∉ mapKeys m := by rw [mem_mapKeys]; exact h
    simp [h, List.nodup_append, hm, this]

lemma nodup_mapKeys_insertVectorResults (v : List SearchResult) :
    ∀ (rank : ℕ) (m : ScoreMap), (mapKeys m).Nodup →
      (mapKeys (insertVectorResults v rank m)).Nodup := by
  induction v with
  | nil => intro rank m hm; simpa [insertVectorResults]
  | cons r rs ih =>
      intro rank m hm
      exact ih (rank + 1) _ (nodup_mapKeys_mapSet _ _ _ hm)

lemma nodup_mapKeys_insertKeywordResults (kres : List SearchResult) :
    ∀ (rank : ℕ) (m : ScoreMap), (mapKeys m).Nodup →
      (mapKeys (insertKeywordResults kres rank m)).Nodup := by
  induction kres with
  | nil => intro rank m hm; simpa [insertKeywordResults]
  | cons r rs ih =>
      intro rank m hm
      refine ih (rank + 1) _ ?_
      by_cases h : mapHas m r.id = true
      · rw [if_pos h, mapKeys_mapAddScore]; exact hm
      · rw [if_neg h]; exact nodup_mapKeys_mapSet _ _ _ hm

lemma nodup_mapKeys_fusionAccumulator (v kres : List SearchResult) :
    (mapKeys (fusionAccumulator v kres)).Nodup :=
  nodup_mapKeys_insertKeywordResults kres 0 _
    (nodup_mapKeys_insertVectorResults v 0 [] (by simp [mapKeys]))

/-- Every entry of the accumulator is stored under its own candidate's id. -/
lemma id_coherent_fusionAccumulator (v kres : List SearchResult) :
    ∀ p ∈ fusionAccumulator v kres, p.2.result.id = p.1 := by
  have hset : ∀ (m : ScoreMap) (key : Str) (e : RRFEntry), e.result.id = key →
      (∀ p ∈ m, p.2.result.id = p.1) → ∀ p ∈ mapSet m key e, p.2.result.id = p.1 := by
    intro m key e he hm
    induction m with
    | nil => simpa [mapSet]
    | cons q rest ih =>
        obtain ⟨k, e0⟩ := q
        by_cases h : k = key
        · subst h
          intro p hp
          rcases List.mem_cons.mp (by simpa [mapSet] using hp) with h1 | h1
          · subst h1; simpa using he
          · exact hm p (List.mem_cons_of_mem _ h1)
        · intro p hp
          rcases List.mem_cons.mp (by simpa [mapSet, h] using hp) with h1 | h1
          · subst h1; exact hm _ (List.mem_cons_self _ _)
          · exact ih (fun q hq => hm q (List.mem_cons_of_mem _ hq)) p h1
  have hadd : ∀ (m : ScoreMap) (key : Str) (q : ℚ),
      (∀ p ∈ m, p.2.result.id = p.1) → ∀ p ∈ mapAddScore m key q, p.2.result.id = p.1 := by
    intro m key q hm
    induction m with
    | nil => simp [mapAddScore]
    | cons q0 rest ih =>
        obtain ⟨k, e0⟩ := q0
        by_cases h : k = key
        · subst h
          intro p hp
          rcases List.mem_cons.mp (by simpa [mapAddScore] using hp) with h1 | h1
          · subst h1
            simpa using hm _ (List.mem_cons_self _ _)
          · exact hm p (List.mem_cons_of_mem _ h1)
        · intro p hp
          rcases List.mem_cons.mp (by simpa [mapAddScore, h] using hp) with h1 | h1
          · subst h1; exact hm _ (List.mem_cons_self _ _)
          · exact ih (fun q hq => hm q (List.mem_cons_of_mem _ hq)) p h1
  have hvec : ∀ (v' : List SearchResult) (rank : ℕ) (m : ScoreMap),
      (∀ p ∈ m, p.2.result.id = p.1) →
      ∀ p ∈ insertVectorResults v' rank m, p.2.result.id = p.1 := by
    intro v'
    induction v' with
    | nil => intro rank m hm; exact hm
    | cons r rs ih =>
        intro rank m hm
        exact ih (rank + 1) _ (hset m r.id ⟨r, rrfScoreAt rank⟩ rfl hm)
  have hkw : ∀ (k' : List SearchResult) (rank : ℕ) (m : ScoreMap),
      (∀ p ∈ m, p.2.result.id = p.1) →
      ∀ p ∈ insertKeywordResults k' rank m, p.2.result.id = p.1 := by
    intro k'
    induction k' with
    | nil => intro rank m hm; exact hm
    | cons r rs ih =>
        intro rank m hm
        refine ih (rank + 1) _ ?_
        by_cases h : mapHas m r.id = true
        · rw [if_pos h]; exact hadd m r.id _ hm
        · rw [if_neg h]; exact hset m r.id ⟨r, rrfScoreAt rank⟩ rfl hm
  exact hkw kres 0 _ (hvec v 0 [] (by simp))

/-! ## Stability of the sort -/

lemma pair_sublist_insertionSort {α : Type} (r : α → α → Prop) [DecidableRel r] :
    ∀ (l : List α) (x y : α), [x, y].Sublist l → r x y →
      [x, y].Sublist (List.insertionSort r l) := by
  intro l
  induction l with
  | nil => intro x y h _; simp at h
  | cons a l ih =>
      intro x y h hr
      have heq : List.insertionSort r (a :: l) =
          List.orderedInsert r a (List.insertionSort r l) := rfl
      rw [heq]
      rcases List.sublist_cons_iff.mp h with h1 | ⟨t, ht, h1⟩
      · exact (ih x y h1 hr).trans (List.sublist_orderedInsert a _)
      · have hx : x = a := by injection ht with h2 _
        have hty : t = [y] := by injection ht with _ h2; exact h2.symm
        subst hx
        subst hty
        have hy : y ∈ List.insertionSort r l :=
          ((List.perm_insertionSort r l).mem_iff).mpr (List.singleton_sublist.mp h1)
        rw [List.orderedInsert_eq_take_drop]
        have hsplit := List.takeWhile_append_dropWhile
          (fun b => decide ¬ r x b) (List.insertionSort r l)
        have hdw : y ∈ List.dropWhile (fun b => decide ¬ r x b)
            (List.insertionSort r l) := by
          rcases List.mem_append.mp (by rw [hsplit]; exact hy) with h2 | h2
          · exact absurd hr (by simpa using List.mem_takeWhile_imp h2)
          · exact h2
        have h3 : (x :: [y]).Sublist
            (x :: List.dropWhile (fun b => decide ¬ r x b) (List.insertionSort r l)) :=
          (List.singleton_sublist.mpr hdw).cons₂ x
        exact h3.trans (List.sublist_append_right _ _)

lemma pair_sublist_of_getElem {α : Type} (l : List α) (i j : ℕ)
    (hi : i < l.length) (hj : j < l.length) (hij : i < j) :
    [l[i], l[j]].Sublist l := by
  have hx : l[i] ∈ l.take (i + 1) := by
    have h0 : i < (l.take (i + 1)).length := by simp [List.length_take]; omega
    have h1 := List.getElem_take (L := l) (j := i + 1) (i := i) (h := h0)
    rw [← h1]
    exact List.getElem_mem _
  have hy : l[j] ∈ l.drop (i + 1) := by
    refine List.getElem?_mem (n := j - (i + 1)) ?_
    rw [List.getElem?_drop]
    have h5 : i + 1 + (j - (i + 1)) = j := by omega
    rw [h5]
    exact List.getElem?_eq_getElem hj
  have h6 : ([l[i]] ++ [l[j]]).Sublist (l.take (i + 1) ++ l.drop (i + 1)) :=
    List.Sublist.append (List.singleton_sublist.mpr hx) (List.singleton_sublist.mpr hy)
  simpa [List.take_append_drop] using h6

lemma nodup_pair_or {α : Type} {l : List α} (hl : l.Nodup) {x y : α}
    (hx : x ∈ l) (hy : y ∈ l) (hxy : x ≠ y) :
    [x, y].Sublist l ∨ [y, x].Sublist l := by
  induction l with
  | nil => simp at hx
  | cons a l ih =>
      rcases List.mem_cons.mp hx with h1 | h1
      · subst h1
        have : y ∈ l := by
          rcases List.mem_cons.mp hy with h2 | h2
          · exact absurd h2.symm hxy
          · exact h2
        exact Or.inl ((List.singleton_sublist.mpr this).cons₂ x)
      · rcases List.mem_cons.mp hy with h2 | h2
        · subst h2
          exact Or.inr ((List.singleton_sublist.mpr h1).cons₂ y)
        · rcases ih (List.Nodup.of_cons hl) h1 h2 with h3 | h3
          · exact Or.inl (h3.cons a)
          · exact Or.inr (h3.cons a)

lemma nodup_pair_asymm {α : Type} :
    ∀ {l : List α}, l.Nodup → ∀ {x y : α}, [x, y].Sublist l → [y, x].Sublist l → x = y := by
  intro l
  induction l with
  | nil => intro _ x y h _; simp at h
  | cons a l ih =>
      intro hl x y hxy hyx
      have hanl : a ∉ l := (List.nodup_cons.mp hl).1
      rcases List.sublist_cons_iff.mp hxy with h1 | ⟨t, ht, h1⟩
      · rcases List.sublist_cons_iff.mp hyx with h2 | ⟨t2, ht2, h2⟩
        · exact ih (List.Nodup.of_cons hl) h1 h2
        · have hya : y = a := by injection ht2 with h3 _
          have hyl : y ∈ l := h1.subset (by simp)
          rw [hya] at hyl
          exact absurd hyl hanl
      · have hxa : x = a := by injection ht with h3 _
        rcases List.sublist_cons_iff.mp hyx with h2 | ⟨t2, ht2, h2⟩
        · have hxl : x ∈ l := h2.subset (by simp)
          rw [hxa] at hxl
          exact absurd hxl hanl
        · have hya : y = a := by injection ht2 with h3 _
          rw [hxa, hya]

/-! ## From the fused output back to the accumulator -/

lemma values_ids_eq_keys (v kres : List SearchResult) :
    ((fusionAccumulator v kres).map Prod.snd).map (fun e => e.result.id) =
      mapKeys (fusionAccumulator v kres) := by
  rw [List.map_map, mapKeys]
  exact List.map_congr_left (fun p hp => id_coherent_fusionAccumulator v kres p hp)

lemma nodup_values_fusionAccumulator (v kres : List SearchResult) :
    ((fusionAccumulator v kres).map Prod.snd).Nodup := by
  refine List.Nodup.of_map (fun e => e.result.id) ?_
  rw [values_ids_eq_keys]
  exact nodup_mapKeys_fusionAccumulator v kres

lemma lookup_of_mem_values :
    ∀ (m : ScoreMap), (mapKeys m).Nodup → (∀ p ∈ m, p.2.result.id = p.1) →
      ∀ e ∈ m.map Prod.snd, mapLookup m e.result.id = some e := by
  intro m
  induction m with
  | nil => intro _ _ e he; simp at he
  | cons p rest ih =>
      obtain ⟨k0, e0⟩ := p
      intro hnd hco e he
      have hnd2 : (k0 :: mapKeys rest).Nodup := by
        simpa only [mapKeys, List.map_cons] using hnd
      have he2 : e ∈ e0 :: rest.map Prod.snd := by
        simpa only [List.map_cons] using he
      rcases List.mem_cons.mp he2 with h1 | h1
      · subst h1
        have hk : e.result.id = k0 := hco (k0, e) (List.mem_cons_self _ _)
        simp [mapLookup, hk]
      · have hrest : ∀ p ∈ rest, p.2.result.id = p.1 :=
          fun q hq => hco q (List.mem_cons_of_mem _ hq)
        have hine : e.result.id ∈ mapKeys rest := by
          rcases List.mem_map.mp h1 with ⟨q, hq, hqe⟩
          have h7 := hrest q hq
          rw [hqe] at h7
          rw [h7]
          exact List.mem_map_of_mem Prod.fst hq
        have hk0 : k0 ∉ mapKeys rest := (List.nodup_cons.mp hnd2).1
        have hne : ¬ (k0 = e.result.id) := fun hh => hk0 (hh ▸ hine)
        simp only [mapLookup, if_neg hne]
        exact ih (List.nodup_cons.mp hnd2).2 hrest e h1

/-- Every fused output entry is the image of an accumulator entry that the
map stores under the output's id. -/
lemma mem_mergeAndRerankResults (v kres : List SearchResult) (topK : ℕ)
    (o : SearchResult) (ho : o ∈ mergeAndRerankResults v kres topK) :
    ∃ e : RRFEntry, mapLookup (fusionAccumulator v kres) o.id = some e ∧
      o = ⟨e.result.id, e.result.text, e.rrfScore, e.result.metadata⟩ := by
  unfold mergeAndRerankResults at ho
  rcases List.mem_map.mp ho with ⟨e, he, hoe⟩
  have he2 : e ∈ ((fusionAccumulator v kres).map Prod.snd).insertionSort fusedGE :=
    (List.take_sublist _ _).subset he
  have he3 : e ∈ (fusionAccumulator v kres).map Prod.snd :=
    (List.perm_insertionSort fusedGE _).subset he2
  have hid : o.id = e.result.id := by rw [← hoe]
  refine ⟨e, ?_, ?_⟩
  · rw [hid]
    exact lookup_of_mem_values _ (nodup_mapKeys_fusionAccumulator v kres)
      (id_coherent_fusionAccumulator v kres) e he3
  · rw [← hoe]

/-! ## Duplicate-free inputs: the accumulator agrees with the spec formula -/

lemma rrfScoreAt_eq (i : ℕ) : rrfScoreAt i = 1 / (60 + (i : ℚ) + 1) := by
  simp [rrfScoreAt, rrfK]

lemma vectorLast_eq_none_iff (id : Str) :
    ∀ (v : List SearchResult) (rank : ℕ),
      vectorLast v id rank = none ↔ ∀ r ∈ v, r.id ≠ id := by
  intro v
  induction v with
  | nil => intro rank; simp [vectorLast]
  | cons r rs ih =>
      intro rank
      simp only [vectorLast]
      cases h : vectorLast rs id (rank + 1) with
      | some p =>
          simp only [h]
          constructor
          · intro hh; exact absurd hh (by simp)
          · intro hh
            have : vectorLast rs id (rank + 1) = none :=
              (ih (rank + 1)).mpr (fun q hq => hh q (List.mem_cons_of_mem _ hq))
            rw [h] at this; exact absurd this (by simp)
      | none =>
          have hrs : ∀ q ∈ rs, q.id ≠ id := fun q hq => by
            have := (ih (rank + 1)).mp h
            exact this q hq
          by_cases hr : r.id = id
          · simp [h, hr]
          · simp only [h, if_neg hr]
            constructor
            · intro _ q hq
              rcases List.mem_cons.mp hq with h1 | h1
              · subst h1; exact hr
              · exact hrs q h1
            · intro _; trivial

lemma keywordSum_eq_zero (id : Str) :
    ∀ (kres : List SearchResult) (rank : ℕ), (∀ r ∈ kres, r.id ≠ id) →
      keywordSum kres id rank = 0 := by
  intro kres
  induction kres with
  | nil => intro rank _; rfl
  | cons r rs ih =>
      intro rank h
      have hr : r.id ≠ id := h r (List.mem_cons_self _ _)
      simp only [keywordSum, if_neg hr, zero_add]
      exact ih (rank + 1) (fun q hq => h q (List.mem_cons_of_mem _ hq))

lemma vectorLast_nodup (id : Str) :
    ∀ (v : List SearchResult), (v.map (fun r => r.id)).Nodup →
      ∀ (rank : ℕ) (r : SearchResult) (q : ℚ), vectorLast v id rank = some (r, q) →
        ∃ i, rankInList v id = some i ∧ q = rrfScoreAt (rank + i) := by
  intro v
  induction v with
  | nil => intro _ rank r q h; simp [vectorLast] at h
  | cons r0 rs ih =>
      intro hnd rank r q h
      have hnd2 : (rs.map (fun r => r.id)).Nodup := (List.nodup_cons.mp hnd).2
      have h0 : r0.id ∉ rs.map (fun r => r.id) := (List.nodup_cons.mp hnd).1
      simp only [vectorLast] at h
      cases htail : vectorLast rs id (rank + 1) with
      | some p =>
          rw [htail] at h
          obtain ⟨r1, q1⟩ := p
          have hmem : ∃ s ∈ rs, s.id = id := by
            by_contra hc
            push_neg at hc
            have : vectorLast rs id (rank + 1) = none :=
              (vectorLast_eq_none_iff id rs (rank + 1)).mpr hc
            rw [htail] at this; exact absurd this (by simp)
          obtain ⟨s, hs, hsid⟩ := hmem
          have hne : r0.id ≠ id := by
            intro hr0
            apply h0
            rw [hr0, ← hsid]
            exact List.mem_map_of_mem _ hs
          rcases ih hnd2 (rank + 1) r1 q1 htail with ⟨i, hi, hq1⟩
          refine ⟨i + 1, ?_, ?_⟩
          · simp [rankInList, hne, hi]
          · have hqq : q = q1 := by
              injection h with h2
              injection h2 with h3 h4
              exact h4.symm
            rw [hqq, hq1]
            congr 1
            omega
      | none =>
          rw [htail] at h
          by_cases hr : r0.id = id
          · rw [if_pos hr] at h
            refine ⟨0, by simp [rankInList, hr], ?_⟩
            have hq : q = rrfScoreAt rank := by
              injection h with h2
              injection h2 with h3 h4
              exact h4.symm
            rw [hq]
            congr 1
          · rw [if_neg hr] at h
            exact absurd h (by simp)

lemma keywordSum_nodup (id : Str) :
    ∀ (kres : List SearchResult), (kres.map (fun r => r.id)).Nodup →
      ∀ (rank : ℕ),
        keywordSum kres id rank =
          match rankInList kres id with
          | some i => rrfScoreAt (rank + i)
          | none => 0 := by
  intro kres
  induction kres with
  | nil => intro _ rank; simp [keywordSum, rankInList]
  | cons r rs ih =>
      intro hnd rank
      have hnd2 : (rs.map (fun r => r.id)).Nodup := (List.nodup_cons.mp hnd).2
      have h0 : r.id ∉ rs.map (fun r => r.id) := (List.nodup_cons.mp hnd).1
      by_cases hr : r.id = id
      · have hrs : ∀ q ∈ rs, q.id ≠ id := by
          intro q hq hqid
          apply h0
          rw [hr, ← hqid]
          exact List.mem_map_of_mem _ hq
        simp only [keywordSum, if_pos hr, rankInList]
        rw [keywordSum_eq_zero id rs (rank + 1) hrs]
        simp
      · simp only [keywordSum, if_neg hr, rankInList, zero_add]
        rw [ih hnd2 (rank + 1)]
        cases h : rankInList rs id with
        | some i =>
            simp only [h, Option.map_some]
            congr 1
            show rank + 1 + i = rank + (i + 1)
            omega
        | none => simp [h]

lemma rankInList_eq_none_iff (l : List SearchResult) (id : Str) :
    rankInList l id = none ↔ ∀ r ∈ l, r.id ≠ id := by
  induction l with
  | nil => simp [rankInList]
  | cons r rs ih =>
      by_cases hr : r.id = id
      · simp [rankInList, hr]
      · simp only [rankInList, if_neg hr]
        cases h : rankInList rs id with
        | some i =>
            constructor
            · intro hh; simp at hh
            · intro hall
              have h2 := ih.mpr (fun q hq => hall q (List.mem_cons_of_mem _ hq))
              rw [h] at h2
              exact absurd h2 (by simp)
        | none =>
            have hall := ih.mp h
            constructor
            · intro _ q hq
              rcases List.mem_cons.mp hq with h1 | h1
              · subst h1; exact hr
              · exact hall q h1
            · intro _; rfl

lemma rrfSpecContribution_eq (l : List SearchResult) (id : Str) :
    rrfSpecContribution l id =
      match rankInList l id with
      | some i => rrfScoreAt i
      | none => 0 := by
  cases h : rankInList l id with
  | some i => simp [rrfSpecContribution, h, rrfScoreAt_eq]
  | none => simp [rrfSpecContribution, h]

/-! ## Concrete fixtures -/

def sampleMeta : SearchMetadata :=
  ⟨str "Uniswap", str "HIGH", str "Reentrancy", str "details", str "link", str "TrailOfBits"⟩

/-- D1: vector rank 0, absent from the keyword list. -/
def docD1 : SearchResult := ⟨str "D1", str "vector text one", 9/10, sampleMeta⟩

/-- D2 as returned by vector search (rank 1). -/
def docD2Vector : SearchResult := ⟨str "D2", str "vector text two", 8/10, sampleMeta⟩

/-- D2 as returned by keyword search (rank 0). -/
def docD2Keyword : SearchResult := ⟨str "D2", str "keyword text two", 3/10, sampleMeta⟩

/-- Two vector candidates sharing one document id with different payloads. -/
def dupFirst : SearchResult := ⟨str "A", str "first payload", 1, sampleMeta⟩

def dupSecond : SearchResult := ⟨str "A", str "second payload", 1, sampleMeta⟩

/-- C4: `fuse(A, B, topK)` returns at most `topK` entries and never two
entries sharing a document identifier. -/
theorem fuse_truncation_and_dedup (v k : List SearchResult) (topK : ℕ) :
    (mergeAndRerankResults v k topK).length ≤ topK ∧
      ((mergeAndRerankResults v k topK).map (fun r => r.id)).Nodup := by
  constructor
  · unfold mergeAndRerankResults
    rw [List.length_map]
    exact List.length_take_le _ _
  · unfold mergeAndRerankResults
    rw [List.map_map]
    have hperm : ((((fusionAccumulator v k).map Prod.snd).insertionSort fusedGE).map
        (fun e => e.result.id)).Perm
        (((fusionAccumulator v k).map Prod.snd).map (fun e => e.result.id)) :=
      (List.perm_insertionSort fusedGE _).map _
    have hnd : ((((fusionAccumulator v k).map Prod.snd).insertionSort fusedGE).map
        (fun e => e.result.id)).Nodup := by
      refine hperm.symm.nodup ?_
      rw [values_ids_eq_keys]
      exact nodup_mapKeys_fusionAccumulator v k
    have hsub : (((((fusionAccumulator v k).map Prod.snd).insertionSort fusedGE).take
        topK).map (fun e => e.result.id)).Sublist
        ((((fusionAccumulator v k).map Prod.snd).insertionSort fusedGE).map
          (fun e => e.result.id)) :=
      (List.take_sublist _ _).map _
    exact hsub.nodup hnd

/-- C3: `fuse` is deterministic, and when two distinct output entries carry
equal fused scores, the one whose document id was inserted into the
accumulator first (vector candidates before keyword candidates, each in
list order) appears earlier: its id precedes the other's in the
accumulator's key order. -/
theorem fuse_deterministic_tiebreak (v k : List SearchResult) (topK : ℕ) :
    mergeAndRerankResults v k topK = mergeAndRerankResults v k topK ∧
    ∀ (i j : ℕ) (hi : i < (mergeAndRerankResults v k topK).length)
      (hj : j < (mergeAndRerankResults v k topK).length), i < j →
      ((mergeAndRerankResults v k topK)[i]).score =
        ((mergeAndRerankResults v k topK)[j]).score →
      [((mergeAndRerankResults v k topK)[i]).id,
        ((mergeAndRerankResults v k topK)[j]).id].Sublist
        (mapKeys (fusionAccumulator v k)) := by
  refine ⟨rfl, ?_⟩
  intro i j hi hj hij hsc
  have hvnd : ((fusionAccumulator v k).map Prod.snd).Nodup :=
    nodup_values_fusionAccumulator v k
  have hsnd : (((fusionAccumulator v k).map Prod.snd).insertionSort fusedGE).Nodup :=
    (List.perm_insertionSort fusedGE _).symm.nodup hvnd
  have hlen : (mergeAndRerankResults v k topK).length =
      ((((fusionAccumulator v k).map Prod.snd).insertionSort fusedGE).take topK).length := by
    simp [mergeAndRerankResults]
  have hi2 : i < ((((fusionAccumulator v k).map Prod.snd).insertionSort fusedGE).take
      topK).length := hlen ▸ hi
  have hj2 : j < ((((fusionAccumulator v k).map Prod.snd).insertionSort fusedGE).take
      topK).length := hlen ▸ hj
  have hi3 : i < (((fusionAccumulator v k).map Prod.snd).insertionSort fusedGE).length :=
    lt_of_lt_of_le hi2 (by rw [List.length_take]; exact min_le_right _ _)
  have hj3 : j < (((fusionAccumulator v k).map Prod.snd).insertionSort fusedGE).length :=
    lt_of_lt_of_le hj2 (by rw [List.length_take]; exact min_le_right _ _)
  have hgeti : (mergeAndRerankResults v k topK)[i] =
      { ((((fusionAccumulator v k).map Prod.snd).insertionSort fusedGE)[i]).result
        with score :=
          ((((fusionAccumulator v k).map Prod.snd).insertionSort fusedGE)[i]).rrfScore } := by
    simp only [mergeAndRerankResults, List.getElem_map, List.getElem_take]
  have hgetj : (mergeAndRerankResults v k topK)[j] =
      { ((((fusionAccumulator v k).map Prod.snd).insertionSort fusedGE)[j]).result
        with score :=
          ((((fusionAccumulator v k).map Prod.snd).insertionSort fusedGE)[j]).rrfScore } := by
    simp only [mergeAndRerankResults, List.getElem_map, List.getElem_take]
  set S := (((fusionAccumulator v k).map Prod.snd).insertionSort fusedGE) with hS
  set x := S[i] with hxdef
  set y := S[j] with hydef
  have hxy : x ≠ y := by
    intro hh
    have := (List.Nodup.getElem_inj_iff hsnd).mp hh
    omega
  have hscq : x.rrfScore = y.rrfScore := by
    rw [hgeti, hgetj] at hsc
    exact hsc
  have hxv : x ∈ (fusionAccumulator v k).map Prod.snd :=
    (List.perm_insertionSort fusedGE _).subset (List.getElem_mem hi3)
  have hyv : y ∈ (fusionAccumulator v k).map Prod.snd :=
    (List.perm_insertionSort fusedGE _).subset (List.getElem_mem hj3)
  have hpairS : [x, y].Sublist S := pair_sublist_of_getElem S i j hi3 hj3 hij
  have hpairV : [x, y].Sublist ((fusionAccumulator v k).map Prod.snd) := by
    rcases nodup_pair_or hvnd hxv hyv hxy with hgood | hbad
    · exact hgood
    · exfalso
      have hge : fusedGE y x := le_of_eq hscq
      have : [y, x].Sublist S := pair_sublist_insertionSort fusedGE _ y x hbad hge
      exact hxy (nodup_pair_asymm hsnd hpairS this)
  have hmap : [x.result.id, y.result.id].Sublist
      (((fusionAccumulator v k).map Prod.snd).map (fun e => e.result.id)) := by
    have := hpairV.map (fun e => e.result.id)
    simpa using this
  rw [values_ids_eq_keys] at hmap
  rw [hgeti, hgetj]
  exact hmap

/-- C5 (amended): every fused result equals an input candidate bearing its
document id with only the score replaced; the kept payload is the *last*
vector-list occurrence of the id when one exists, otherwise the first
keyword-list occurrence. -/
theorem fuse_keeps_channel_payload (v k : List SearchResult) (topK : ℕ)
    (o : SearchResult) (ho : o ∈ mergeAndRerankResults v k topK) :
    ∃ c, keptCandidate v k o.id = some c ∧
      o.id = c.id ∧ o.text = c.text ∧ o.metadata = c.metadata := by
  rcases mem_mergeAndRerankResults v k topK o ho with ⟨e, he, hoe⟩
  rw [lookup_fusionAccumulator] at he
  cases hv : vectorLast v o.id 0 with
  | some p =>
      obtain ⟨r, q⟩ := p
      rw [hv] at he
      have he2 : e = ⟨r, q + keywordSum k o.id 0⟩ := by
        injection he with h2
        exact h2.symm
      refine ⟨r, by simp [keptCandidate, hv], ?_, ?_, ?_⟩
      · rw [hoe, he2]
      · rw [hoe, he2]
      · rw [hoe, he2]
  | none =>
      rw [hv] at he
      cases hkf : keywordFirst k o.id with
      | none => rw [hkf] at he; simp at he
      | some r =>
          rw [hkf] at he
          have he2 : e = ⟨r, keywordSum k o.id 0⟩ := by
            simp only [Option.map_some] at he
            injection he with h2
            exact h2.symm
          refine ⟨r, by simp [keptCandidate, hv, hkf], ?_, ?_, ?_⟩
          · rw [hoe, he2]
          · rw [hoe, he2]
          · rw [hoe, he2]

/-- C5 counterexample: with two vector candidates sharing the id `"A"`,
the fused output keeps the payload of the *second* (last) occurrence,
while the first-seen candidate carries a different text. -/
theorem fuse_first_seen_payload_cex :
    (((([dupFirst, dupSecond] : List SearchResult) ++ []).find?
        (fun (r : SearchResult) => decide (r.id = str "A"))).map
          (fun (r : SearchResult) => r.text)) =
      some (str "first payload") ∧
    (mergeAndRerankResults [dupFirst, dupSecond] [] 5).map (fun r => r.text) =
      [str "second payload"] ∧
    str "second payload" ≠ str "first payload" := by
  refine ⟨by norm_num [dupFirst, dupSecond, str, List.find?], ?_, by decide⟩
  norm_num [mergeAndRerankResults, fusionAccumulator, insertKeywordResults,
    insertVectorResults, mapSet, mapHas, mapAddScore, rrfScoreAt, rrfK, str,
    List.insertionSort, List.orderedInsert, fusedGE, dupFirst, dupSecond]

/-- C5 witness: a concrete run in which the kept payload is exhibited. -/
theorem fuse_keeps_channel_payload_witness :
    ∃ c, keptCandidate [docD1] [] (str "D1") = some c ∧
      str "D1" = c.id ∧ str "vector text one" = c.text ∧ sampleMeta = c.metadata := by
  have h := fuse_keeps_channel_payload [docD1] [] 5
    ⟨str "D1", str "vector text one", 1 / 61, sampleMeta⟩
    (by
      norm_num [mergeAndRerankResults, fusionAccumulator, insertKeywordResults,
        insertVectorResults, mapSet, mapHas, mapAddScore, rrfScoreAt, rrfK, str,
        List.insertionSort, List.orderedInsert, fusedGE, docD1])
  exact h

/-- C1 (amended): when each document id occurs at most once per input list,
every fused result's score is the sum over both lists of `1 / (60 + r + 1)`
for its zero-based rank `r` there (`0` when absent); and in the concrete
scenario `fuse([D1, D2], [D2], 2)` the output order is `[D2, D1]` with
D2 scored `1/61 + 1/62` (vector rank 1, keyword rank 0) and D1 scored
`1/61`. -/
theorem rrf_fused_score_sum :
    (∀ (v k : List SearchResult) (topK : ℕ),
        ((v.map fun r => r.id).Nodup) → ((k.map fun r => r.id).Nodup) →
        ∀ o ∈ mergeAndRerankResults v k topK,
          o.score = rrfSpecContribution v o.id + rrfSpecContribution k o.id) ∧
      (mergeAndRerankResults [docD1, docD2Vector] [docD2Keyword] 2).map
          (fun r => (r.id, r.score)) =
        [(str "D2", 1 / 61 + 1 / 62), (str "D1", 1 / 61)] := by
  constructor
  · intro v k topK hv hk o ho
    rcases mem_mergeAndRerankResults v k topK o ho with ⟨e, he, hoe⟩
    rw [lookup_fusionAccumulator] at he
    have hscore : o.score = e.rrfScore := by rw [hoe]
    cases hvl : vectorLast v o.id 0 with
    | some p =>
        obtain ⟨r, q⟩ := p
        rw [hvl] at he
        have he2 : e.rrfScore = q + keywordSum k o.id 0 := by
          injection he with h2
          rw [← h2]
        rcases vectorLast_nodup o.id v hv 0 r q hvl with ⟨i, hi, hq⟩
        rw [hscore, he2, hq]
        rw [rrfSpecContribution_eq, rrfSpecContribution_eq, hi]
        rw [keywordSum_nodup o.id k hk 0]
        cases hk2 : rankInList k o.id with
        | some i2 => simp
        | none => simp
    | none =>
        rw [hvl] at he
        cases hkf : keywordFirst k o.id with
        | none => rw [hkf] at he; simp at he
        | some r =>
            rw [hkf] at he
            have he2 : e.rrfScore = keywordSum k o.id 0 := by
              simp only [Option.map_some] at he
              injection he with h2
              rw [← h2]
            rw [hscore, he2, rrfSpecContribution_eq, rrfSpecContribution_eq]
            have hnone : rankInList v o.id = none :=
              (rankInList_eq_none_iff _ _).mpr ((vectorLast_eq_none_iff o.id v 0).mp hvl)
            rw [hnone, keywordSum_nodup o.id k hk 0]
            cases hk2 : rankInList k o.id with
            | some i2 => simp
            | none => simp
  · norm_num [mergeAndRerankResults, fusionAccumulator, insertKeywordResults,
      insertVectorResults, mapSet, mapHas, mapAddScore, rrfScoreAt, rrfK, str,
      List.insertionSort, List.orderedInsert, fusedGE, docD1, docD2Vector, docD2Keyword]

/-- C1 counterexample: the fused score of D2 in the claim's own scenario is
`1/61 + 1/62` (vector rank 1 contributes `1/62`), not the claimed
`1/61 + 1/61 = 0.03279`. -/
theorem rrf_scenario_score_cex :
    (mergeAndRerankResults [docD1, docD2Vector] [docD2Keyword] 2).map
        (fun r => r.score) = [1 / 61 + 1 / 62, 1 / 61] ∧
      (1 / 61 + 1 / 62 : ℚ) ≠ 1 / 61 + 1 / 61 := by
  constructor
  · norm_num [mergeAndRerankResults, fusionAccumulator, insertKeywordResults,
      insertVectorResults, mapSet, mapHas, mapAddScore, rrfScoreAt, rrfK, str,
      List.insertionSort, List.orderedInsert, fusedGE, docD1, docD2Vector, docD2Keyword]
  · norm_num

/-- C1 witness: the duplicate-free hypotheses hold on a concrete run and
the score law evaluates there. -/
theorem rrf_fused_score_sum_witness :
    (⟨str "D1", str "vector text one", 1 / 61, sampleMeta⟩ : SearchResult).score =
      rrfSpecContribution [docD1] (str "D1") + rrfSpecContribution [] (str "D1") := by
  exact rrf_fused_score_sum.1 [docD1] [] 5 (by simp) (by simp) _
    (by
      norm_num [mergeAndRerankResults, fusionAccumulator, insertKeywordResults,
        insertVectorResults, mapSet, mapHas, mapAddScore, rrfScoreAt, rrfK, str,
        List.insertionSort, List.orderedInsert, fusedGE, docD1])

/-- C3 witness: a concrete tie — D1 at vector rank 0 and D2 at keyword
rank 0 both score `1/61`; the vector-inserted id precedes in the
accumulator key order. -/
theorem fuse_deterministic_tiebreak_witness :
    [str "D1", str "D2"].Sublist (mapKeys (fusionAccumulator [docD1] [docD2Keyword])) := by
  have hout : mergeAndRerankResults [docD1] [docD2Keyword] 5 =
      [⟨str "D1", str "vector text one", 1 / 61, sampleMeta⟩,
       ⟨str "D2", str "keyword text two", 1 / 61, sampleMeta⟩] := by
    norm_num [mergeAndRerankResults, fusionAccumulator, insertKeywordResults,
      insertVectorResults, mapSet, mapHas, mapAddScore, rrfScoreAt, rrfK, str,
      List.insertionSort, List.orderedInsert, fusedGE, docD1, docD2Keyword]
  have h2 := (fuse_deterministic_tiebreak [docD1] [docD2Keyword] 5).2 0 1
    (by rw [hout]; norm_num) (by rw [hout]; norm_num) (by norm_num)
    (by simp only [hout]; norm_num)
  simp only [hout] at h2
  simpa using h2

/-! ## Chunker (`document-processor.ts`) -/

/-- One audited finding (`IAuditFinding`), restricted to the fields the
`DocumentProcessor` reads. -/
structure AuditFinding where
  content : Str
  title : Str
  impact : Str
  protocol_name : Str
  firm_name : Str
  source_link : Str
deriving DecidableEq, Repr, Inhabited

/-- `ProcessedChunk.metadata`. -/
structure ChunkMetadata where
  «section» : Str
  impact : Str
  protocol : Str
  firm : Str
  title : Str
  source_link : Str
deriving DecidableEq, Repr, Inhabited

/-- One chunk produced by `processAuditFinding`. -/
structure ProcessedChunk where
  text : Str
  chunk_index : ℕ
  metadata : ChunkMetadata
deriving DecidableEq, Repr, Inhabited

/-- JS `String.prototype.split` with a one-character-class regex applied to
runs (`/[.!?]+/`, `/\s+/`): split at every maximal run of characters
matching `p`, keeping the (possibly empty) pieces at both boundaries.
`acc` is the current piece (reversed); the flag records being inside a
delimiter run. -/
def splitRunsGo (p : Char → Bool) : List Char → List Char → Bool → List Str
  | [], acc, inRun => if inRun then [[]] else [acc.reverse]
  | c :: rest, acc, inRun =>
      if inRun then
        if p c then splitRunsGo p rest [] true
        else splitRunsGo p rest [c] false
      else
        if p c then acc.reverse :: splitRunsGo p rest [] true
        else splitRunsGo p rest (c :: acc) false

def splitRuns (p : Char → Bool) (cs : List Char) : List Str :=
  splitRunsGo p cs [] false

/-- JS `String.prototype.trim`. -/
def trim (cs : Str) : Str :=
  ((cs.dropWhile Char.isWhitespace).reverse.dropWhile Char.isWhitespace).reverse

/-- A sentence-terminating character (`[.!?]`). -/
def isTerminator (c : Char) : Bool := c = '.' || c = '!' || c = '?'

/-- `splitIntoSentences` (`document-processor.ts`, lines 398–403):
`text.split(/[.!?]+/).map(s => s.trim()).filter(s => s.length > 0)`. -/
def splitIntoSentences (text : Str) : List Str :=
  ((splitRuns isTerminator text).map trim).filter (fun s => s.length > 0)

/-- The piece count of `text.split(/\s+/)` (JS keeps empty boundary
pieces, and `"".split(/\s+/)` is `[""]`, count 1). -/
def wordCount (s : Str) : ℕ := (splitRuns (fun c => c.isWhitespace) s).length

/-- `estimateTokens` (`document-processor.ts`, lines 408–410):
`Math.ceil(text.split(/\s+/).length * 1.3)`, i.e. `⌈13·w / 10⌉`. -/
def estimateTokens (s : Str) : ℕ := (13 * wordCount s + 9) / 10

/-- `maxChunkSize = 512` tokens. -/
def maxChunkSize : ℕ := 512

/-- `chunkOverlap = 50` tokens. -/
def chunkOverlap : ℕ := 50

/-- The loop of `getOverlapSentences` (lines 415–428), walking the
sentence list from the end (modelled on the reversed list): take trailing
sentences while the running size stays within `chunkOverlap`, `break` on
the first that would exceed it. -/
def overlapLoop : List Str → ℕ → List Str → List Str
  | [], _, overlap => overlap
  | s :: rest, overlapSize, overlap =>
      if chunkOverlap < overlapSize + estimateTokens s then overlap
      else overlapLoop rest (overlapSize + estimateTokens s) (s :: overlap)

/-- `getOverlapSentences(sentences)`. -/
def getOverlapSentences (sentences : List Str) : List Str :=
  overlapLoop sentences.reverse 0 []

/-- JS `Array.prototype.join(' ')`. -/
def joinSp (l : List Str) : Str := List.intercalate [' '] l

/-- The sentence loop of `chunkText` (lines 346–373), tracking the emitted
chunks as sentence windows (the code joins each window with `' '` exactly
when it is pushed). -/
def chunkLoop : List Str → List (List Str) → List Str → ℕ → List (List Str)
  | [], chunks, currentChunk, _ =>
      if 0 < currentChunk.length then chunks ++ [currentChunk] else chunks
  | sentence :: rest, chunks, currentChunk, currentSize =>
      if maxChunkSize < currentSize + estimateTokens sentence ∧ 0 < currentChunk.length then
        let overlap := getOverlapSentences currentChunk
        chunkLoop rest (chunks ++ [currentChunk]) (overlap ++ [sentence])
          (estimateTokens (joinSp overlap) + estimateTokens sentence)
      else
        chunkLoop rest chunks (currentChunk ++ [sentence])
          (currentSize + estimateTokens sentence)

/-- The chunks of one section body, as sentence windows. -/
def chunkWindows (text : Str) : List (List Str) :=
  chunkLoop (splitIntoSentences text) [] [] 0

/-- `chunkText(text)`: the emitted chunk strings. -/
def chunkText (text : Str) : List Str := (chunkWindows text).map joinSp

/-- Earliest match of the regex `\*\*([^*]+)\*\*` starting exactly at the
head: `**`, a nonempty run of non-`*` characters, `**`. -/
def tryBoldAt : List Char → Option (Str × Str)
  | '*' :: '*' :: rest =>
      match rest.takeWhile (fun c => c ≠ '*'), rest.dropWhile (fun c => c ≠ '*') with
      | cap, '*' :: '*' :: r => if cap.isEmpty then none else some (cap, r)
      | _, _ => none
  | _ => none

/-- Earliest match of `\*\*([^*]+)\*\*` anywhere: the text before the
match, the capture, and the remainder after the match. -/
def findBold : List Char → Option (Str × Str × Str)
  | [] => none
  | c :: rest =>
      match tryBoldAt (c :: rest) with
      | some (cap, r) => some ([], cap, r)
      | none =>
          match findBold rest with
          | some (pre, cap, r) => some (c :: pre, cap, r)
          | none => none

/-- JS `content.split(/\*\*([^*]+)\*\*/g)`: pieces interleaved with the
capture groups.  The fuel argument (`length + 1` at the entry point)
dominates the recursion depth, since each match consumes at least the
five characters `**x**`. -/
def boldParts : ℕ → List Char → List Str
  | 0, cs => [cs]
  | fuel + 1, cs =>
      match findBold cs with
      | none => [cs]
      | some (pre, cap, r) => pre :: cap :: boldParts fuel r

/-- The `for (let i = 1; i < parts.length; i += 2)` loop of
`extractSections`: pair each capture (section name) with the following
piece (section body, `''` when missing), trim both, keep non-empty bodies. -/
def sectionPairs : List Str → List (Str × Str)
  | name :: body :: rest =>
      let c := trim body
      if c.isEmpty then sectionPairs rest
      else (trim name, c) :: sectionPairs rest
  | _ => []

/-- `extractSections` (`document-processor.ts`, lines 313–341). -/
def extractSections (content : Str) : List (Str × Str) :=
  let parts := boldParts (content.length + 1) content
  let sections := sectionPairs (parts.drop 1)
  if sections.isEmpty then [(str "content", content)] else sections

/-- `enrichChunkContext` (lines 378–393): the rendered metadata header
(five labelled lines and a blank line) prefixed to the chunk body. -/
def enrichChunkContext (chunk : Str) (finding : AuditFinding) (sectionName : Str) : Str :=
  List.intercalate (str "\n")
    [str "Protocol: " ++ finding.protocol_name,
     str "Issue: " ++ finding.title,
     str "Impact: " ++ finding.impact,
     str "Section: " ++ sectionName,
     str "Audit Firm: " ++ finding.firm_name,
     []] ++ chunk

/-- The `chunks.push` loop: `chunk_index` is the running length of the
output array at push time. -/
def buildChunks (finding : AuditFinding) : List (Str × Str) → ℕ → List ProcessedChunk
  | [], _ => []
  | (t, sec) :: rest, idx =>
      ⟨t, idx, ⟨sec, finding.impact, finding.protocol_name, finding.firm_name,
        finding.title, finding.source_link⟩⟩ :: buildChunks finding rest (idx + 1)

/-- `processAuditFinding` (lines 281–308). -/
def processAuditFinding (finding : AuditFinding) : List ProcessedChunk :=
  buildChunks finding
    ((extractSections finding.content).flatMap
      (fun sec => (chunkText sec.2).map
        (fun chunk => (enrichChunkContext chunk finding sec.1, sec.1))))
    0

/-! ## Overlap characterization -/

/-- Total estimated-token size of a sentence set. -/
def sumTokens (l : List Str) : ℕ := (l.map estimateTokens).sum

lemma overlapLoop_spec :
    ∀ (rl : List Str) (sz : ℕ) (acc : List Str), sz ≤ chunkOverlap →
      ∃ m, m ≤ rl.length ∧ overlapLoop rl sz acc = (rl.take m).reverse ++ acc ∧
        sz + sumTokens (rl.take m) ≤ chunkOverlap ∧
        (m = rl.length ∨ chunkOverlap < sz + sumTokens (rl.take (m + 1))) := by
  intro rl
  induction rl with
  | nil =>
      intro sz acc hsz
      exact ⟨0, le_rfl, rfl, by simpa [sumTokens], Or.inl rfl⟩
  | cons s rest ih =>
      intro sz acc hsz
      by_cases hbr : chunkOverlap < sz + estimateTokens s
      · refine ⟨0, Nat.zero_le _, ?_, by simpa [sumTokens], Or.inr ?_⟩
        · simp [overlapLoop, hbr]
        · simpa [sumTokens] using hbr
      · have hsz2 : sz + estimateTokens s ≤ chunkOverlap := le_of_not_lt hbr
        rcases ih (sz + estimateTokens s) (s :: acc) hsz2 with ⟨m, hmle, heq, hsum, hmax⟩
        refine ⟨m + 1, by simpa using hmle, ?_, ?_, ?_⟩
        · rw [overlapLoop, if_neg hbr, heq]
          simp
        · simp only [List.take_succ_cons, sumTokens, List.map_cons, List.sum_cons]
          simp only [sumTokens] at hsum
          omega
        · rcases hmax with h | h
          · exact Or.inl (by simp [h])
          · refine Or.inr ?_
            simp only [List.take_succ_cons, sumTokens, List.map_cons, List.sum_cons]
            simp only [sumTokens] at h
            omega

lemma sumTokens_reverse (l : List Str) : sumTokens l.reverse = sumTokens l := by
  simp [sumTokens, List.map_reverse, List.sum_reverse]

/-- `getOverlapSentences` returns a suffix of its input whose total
estimated-token size fits the overlap budget, extended maximally: taking
one more trailing sentence would exceed the budget. -/
lemma getOverlapSentences_spec (l : List Str) :
    ∃ n, getOverlapSentences l = l.drop n ∧
      sumTokens (l.drop n) ≤ chunkOverlap ∧
      (n = 0 ∨ chunkOverlap < sumTokens (l.drop (n - 1))) := by
  rcases overlapLoop_spec l.reverse 0 [] (Nat.zero_le _) with ⟨m, hmle, heq, hsum, hmax⟩
  rw [List.length_reverse] at hmle
  have hdrop : (l.reverse.take m).reverse = l.drop (l.length - m) := by
    have h1 : (l.drop (l.length - m)).reverse = l.reverse.take (l.length - (l.length - m)) :=
      List.reverse_drop
    have h2 : l.length - (l.length - m) = m := by omega
    rw [h2] at h1
    rw [← h1, List.reverse_reverse]
  refine ⟨l.length - m, ?_, ?_, ?_⟩
  · rw [getOverlapSentences, heq, List.append_nil, hdrop]
  · rw [← hdrop, sumTokens_reverse]
    simpa using hsum
  · by_cases hm : m = l.length
    · exact Or.inl (by omega)
    · rcases hmax with h | h
      · rw [List.length_reverse] at h; exact absurd h hm
      · refine Or.inr ?_
        have hdrop2 : (l.reverse.take (m + 1)).reverse = l.drop (l.length - m - 1) := by
          have h1 : (l.drop (l.length - m - 1)).reverse =
              l.reverse.take (l.length - (l.length - m - 1)) := List.reverse_drop
          have h2 : l.length - (l.length - m - 1) = m + 1 := by omega
          rw [h2] at h1
          rw [← h1, List.reverse_reverse]
        have h4 : sumTokens (List.drop (l.length - m - 1) l) =
            sumTokens (List.take (m + 1) l.reverse) := by
          rw [← hdrop2, sumTokens_reverse]
        rw [h4]
        omega

lemma getOverlapSentences_drop (l : List Str) :
    ∃ n, getOverlapSentences l = l.drop n := by
  rcases getOverlapSentences_spec l with ⟨n, h, _, _⟩
  exact ⟨n, h⟩

lemma mem_getOverlapSentences {l : List Str} {s : Str}
    (h : s ∈ getOverlapSentences l) : s ∈ l := by
  rcases getOverlapSentences_drop l with ⟨n, hn⟩
  rw [hn] at h
  exact List.drop_subset n l h

/-! ## Reconstruction of section bodies from chunks -/

/-- Undo the seeded overlap: drop from each window the sentences it copied
from the end of the previous window. -/
def reconstructAux (prev : List Str) : List (List Str) → List Str
  | [] => []
  | c :: cs => c.drop (getOverlapSentences prev).length ++ reconstructAux c cs

/-- The sentence sequence a window list denotes once each window's seeded
overlap is removed. -/
def reconstructWindows : List (List Str) → List Str
  | [] => []
  | c :: cs => c ++ reconstructAux c cs

lemma chunkLoop_append (rest : List Str) :
    ∀ (chunks : List (List Str)) (cur : List Str) (size : ℕ),
      chunkLoop rest chunks cur size = chunks ++ chunkLoop rest [] cur size := by
  induction rest with
  | nil =>
      intro chunks cur size
      by_cases h : 0 < cur.length <;> simp [chunkLoop, h]
  | cons s rest ih =>
      intro chunks cur size
      by_cases h : maxChunkSize < size + estimateTokens s ∧ 0 < cur.length
      · simp only [chunkLoop, if_pos h]
        rw [ih (chunks ++ [cur]), ih ([] ++ [cur])]
        simp
      · simp only [chunkLoop, if_neg h]
        exact ih chunks _ _

lemma chunkLoop_spec (rest : List Str) :
    ∀ (cur : List Str) (size : ℕ), cur ≠ [] →
      ∃ c cs, chunkLoop rest [] cur size = c :: cs ∧
        c.take cur.length = cur ∧
        c ++ reconstructAux c cs = cur ++ rest ∧
        List.Chain' (fun a b =>
          b.take (getOverlapSentences a).length = getOverlapSentences a) (c :: cs) ∧
        (∀ w ∈ c :: cs, w ≠ []) ∧
        (∀ w ∈ c :: cs, ∀ s ∈ w, s ∈ cur ++ rest) := by
  induction rest with
  | nil =>
      intro cur size hcur
      refine ⟨cur, [], ?_, List.take_length cur, by simp [reconstructAux], ?_, ?_, ?_⟩
      · simp [chunkLoop, List.length_pos.mpr hcur]
      · simp
      · simpa using hcur
      · intro w hw s hs
        simp only [List.mem_singleton] at hw
        subst hw
        simpa using hs
  | cons sentence rest ih =>
      intro cur size hcur
      by_cases hover : maxChunkSize < size + estimateTokens sentence ∧ 0 < cur.length
      · -- overflow: close the current chunk, seed the next with the overlap
        have hstep : chunkLoop (sentence :: rest) [] cur size =
            cur :: chunkLoop rest []
              (getOverlapSentences cur ++ [sentence])
              (estimateTokens (joinSp (getOverlapSentences cur)) + estimateTokens sentence) := by
          simp only [chunkLoop, if_pos hover]
          rw [chunkLoop_append]
          simp
        set ov := getOverlapSentences cur with hov
        rcases ih (ov ++ [sentence]) _ (by simp) with ⟨c, cs, heq, htake, hrec, hchain, hne, hmem⟩
        have hcsplit : c = (ov ++ [sentence]) ++ c.drop (ov ++ [sentence]).length := by
          conv_lhs => rw [← List.take_append_drop (ov ++ [sentence]).length c]
          rw [htake]
        have hd : c.drop ov.length = [sentence] ++ c.drop (ov ++ [sentence]).length := by
          conv_lhs => rw [hcsplit]
          have h1 : (ov ++ [sentence]) ++ c.drop (ov ++ [sentence]).length =
              ov ++ ([sentence] ++ c.drop (ov ++ [sentence]).length) := by simp
          rw [h1, List.drop_left]
        have hdtail : [sentence] ++ (c.drop (ov ++ [sentence]).length ++ reconstructAux c cs) =
            [sentence] ++ rest := by
          have h2 : (ov ++ [sentence]) ++
              (c.drop (ov ++ [sentence]).length ++ reconstructAux c cs) =
              (ov ++ [sentence]) ++ rest := by
            rw [← List.append_assoc, ← hcsplit, hrec]
          have h3 := List.append_cancel_left h2
          rw [h3]
        refine ⟨cur, c :: cs, ?_, List.take_length cur, ?_, ?_, ?_, ?_⟩
        · rw [hstep, heq]
        · show cur ++ (c.drop (getOverlapSentences cur).length ++ reconstructAux c cs) =
            cur ++ sentence :: rest
          rw [← hov, hd]
          simp only [List.append_assoc]
          simp only [List.append_assoc] at hdtail
          rw [hdtail]
          simp
        · rw [List.chain'_cons]
          refine ⟨?_, hchain⟩
          rw [← hov]
          conv_lhs => rw [hcsplit]
          have h4 : (ov ++ [sentence]) ++ c.drop (ov ++ [sentence]).length =
              ov ++ ([sentence] ++ c.drop (ov ++ [sentence]).length) := by simp
          rw [h4, List.take_left]
        · intro w hw
          rcases List.mem_cons.mp hw with h5 | h5
          · subst h5; exact hcur
          · exact hne w h5
        · intro w hw s hs
          rcases List.mem_cons.mp hw with h5 | h5
          · subst h5
            exact List.mem_append.mpr (Or.inl hs)
          · have h6 := hmem w h5 s hs
            rcases List.mem_append.mp h6 with h7 | h7
            · rcases List.mem_append.mp h7 with h8 | h8
              · exact List.mem_append.mpr (Or.inl (mem_getOverlapSentences (hov ▸ h8)))
              · simp only [List.mem_singleton] at h8
                subst h8
                simp
            · exact List.mem_append.mpr (Or.inr (List.mem_cons_of_mem _ h7))
      · -- no overflow: extend the current chunk
        have hstep : chunkLoop (sentence :: rest) [] cur size =
            chunkLoop rest [] (cur ++ [sentence]) (size + estimateTokens sentence) := by
          simp only [chunkLoop, if_neg hover]
        rcases ih (cur ++ [sentence]) _ (by simp) with ⟨c, cs, heq, htake, hrec, hchain, hne, hmem⟩
        refine ⟨c, cs, by rw [hstep, heq], ?_, ?_, hchain, hne, ?_⟩
        · have h1 : c.take cur.length = (c.take (cur ++ [sentence]).length).take cur.length := by
            rw [List.take_take]
            congr 1
            simp [min_def]
          rw [h1, htake, List.take_left]
        · rw [hrec]
          simp
        · intro w hw s hs
          have := hmem w hw s hs
          simpa using this

lemma chunkWindows_spec (text : Str) :
    reconstructWindows (chunkWindows text) = splitIntoSentences text ∧
    List.Chain' (fun a b =>
      b.take (getOverlapSentences a).length = getOverlapSentences a) (chunkWindows text) ∧
    (∀ w ∈ chunkWindows text, w ≠ []) ∧
    (∀ w ∈ chunkWindows text, ∀ s ∈ w, s ∈ splitIntoSentences text) := by
  unfold chunkWindows
  cases hss : splitIntoSentences text with
  | nil => simp [chunkLoop, reconstructWindows]
  | cons s rest =>
      have hcond : ¬ (maxChunkSize < 0 + estimateTokens s ∧ 0 < ([] : List Str).length) := by
        simp
      have hfirst : chunkLoop (s :: rest) [] [] 0 =
          chunkLoop rest [] ([] ++ [s]) (0 + estimateTokens s) := by
        simp only [chunkLoop, if_neg hcond]
      rw [hfirst]
      rcases chunkLoop_spec rest ([] ++ [s]) (0 + estimateTokens s) (by simp)
        with ⟨c, cs, heq, htake, hrec, hchain, hne, hmem⟩
      rw [heq]
      refine ⟨?_, hchain, hne, ?_⟩
      · show c ++ reconstructAux c cs = s :: rest
        rw [hrec]
        simp
      · intro w hw s2 hs2
        have h3 := hmem w hw s2 hs2
        simpa using h3

lemma buildChunks_map_text (finding : AuditFinding) :
    ∀ (l : List (Str × Str)) (idx : ℕ),
      (buildChunks finding l idx).map (fun c => c.text) = l.map Prod.fst := by
  intro l
  induction l with
  | nil => intro idx; rfl
  | cons p rest ih =>
      intro idx
      obtain ⟨t, sec⟩ := p
      simp [buildChunks, ih]

lemma buildChunks_length (finding : AuditFinding) :
    ∀ (l : List (Str × Str)) (idx : ℕ), (buildChunks finding l idx).length = l.length := by
  intro l
  induction l with
  | nil => intro idx; rfl
  | cons p rest ih =>
      intro idx
      obtain ⟨t, sec⟩ := p
      simp [buildChunks, ih]

lemma buildChunks_map_index (finding : AuditFinding) :
    ∀ (l : List (Str × Str)) (idx : ℕ),
      (buildChunks finding l idx).map (fun c => c.chunk_index) = List.range' idx l.length := by
  intro l
  induction l with
  | nil => intro idx; rfl
  | cons p rest ih =>
      intro idx
      obtain ⟨t, sec⟩ := p
      simp [buildChunks, ih, List.range'_succ]

/-- C8 (amended): chunk indexes are exactly the positions `0..N-1`; the
emitted texts are, in order, the enriched chunk strings of each extracted
section; and for every section body the chunk windows, onc e each window's
seeded overlap (a suffix of the previous window, duplicated as the next
window's head) is dropped, reconstruct exactly the section's trimmed
sentence sequence — no sentence is lost and nothing else is duplicated.
The original terminal punctuation and whitespace are not preserved. -/
theorem chunker_reconstruction (finding : AuditFinding) :
    ((processAuditFinding finding).map (fun c => c.chunk_index) =
      List.range (processAuditFinding finding).length) ∧
    ((processAuditFinding finding).map (fun c => c.text) =
      (extractSections finding.content).flatMap
        (fun sec => (chunkText sec.2).map
          (fun chunk => enrichChunkContext chunk finding sec.1))) ∧
    (∀ sec ∈ extractSections finding.content,
      reconstructWindows (chunkWindows sec.2) = splitIntoSentences sec.2 ∧
      List.Chain' (fun a b =>
        b.take (getOverlapSentences a).length = getOverlapSentences a ∧
        ∃ n, getOverlapSentences a = a.drop n) (chunkWindows sec.2)) := by
  refine ⟨?_, ?_, ?_⟩
  · unfold processAuditFinding
    rw [buildChunks_map_index, buildChunks_length, List.range_eq_range']
  · unfold processAuditFinding
    rw [buildChunks_map_text]
    rw [List.map_flatMap]
    congr 1
    funext sec
    rw [List.map_map]
    rfl
  · intro sec _
    refine ⟨(chunkWindows_spec sec.2).1, ?_⟩
    refine ((chunkWindows_spec sec.2).2.1).imp ?_
    intro a b h
    rcases getOverlapSentences_drop a with ⟨n, hn⟩
    exact ⟨h, n, hn⟩

/-- C8 counterexample: chunking discards sentence-terminal punctuation, so
the original section body is not literally reconstructible — the `'.'` of
`"hello world."` appears in no emitted chunk. -/
theorem chunker_reconstruction_cex :
    extractSections (str "hello world.") = [(str "content", str "hello world.")] ∧
    chunkText (str "hello world.") = [str "hello world"] ∧
    '.' ∈ str "hello world." ∧ '.' ∉ str "hello world" := by
  refine ⟨by decide, by decide, by decide, by decide⟩

/-- C8 witness: the reconstruction law evaluated on a concrete document. -/
theorem chunker_reconstruction_witness :
    reconstructWindows (chunkWindows (str "hello world.")) =
      splitIntoSentences (str "hello world.") ∧
    List.Chain' (fun a b =>
      b.take (getOverlapSentences a).length = getOverlapSentences a ∧
      ∃ n, getOverlapSentences a = a.drop n)
      (chunkWindows (str "hello world.")) :=
  (chunker_reconstruction
    ⟨str "hello world.", str "T", str "HIGH", str "P", str "F", str "L"⟩).2.2
    (str "content", str "hello world.") (by decide)

/-- C9: the overlap seeded between two consecutive chunks of a section is
a suffix of the earlier chunk taken from the end backward, its cumulative
estimated-token size is within the 50-token budget, and one more trailing
sentence would exceed the budget. -/
theorem chunk_overlap_bound (text : Str) :
    chunkOverlap = 50 ∧
    List.Chain' (fun a b =>
      b.take (getOverlapSentences a).length = getOverlapSentences a ∧
      sumTokens (getOverlapSentences a) ≤ chunkOverlap ∧
      ∃ n, getOverlapSentences a = a.drop n ∧
        (n = 0 ∨ chunkOverlap < sumTokens (a.drop (n - 1)))) (chunkWindows text) := by
  refine ⟨rfl, ?_⟩
  refine ((chunkWindows_spec text).2.1).imp ?_
  intro a b h
  rcases getOverlapSentences_spec a with ⟨n, hn, hsum, hmax⟩
  exact ⟨h, by rw [hn]; exact hsum, n, hn, hmax⟩

/-- A single sentence of 394 one-letter words: estimated size
`⌈394 × 1.3⌉ = 513` tokens, beyond the 512-token maximum. -/
def longSentence : Str := joinSp (List.replicate 394 (str "a"))

set_option maxRecDepth 100000 in
/-- C10: every emitted chunk body is a space-join of whole sentences of
the input (no sentence is ever split), and consequently a single sentence
estimated above 512 tokens is emitted whole, as a chunk exceeding the
maximum. -/
theorem chunker_whole_sentences :
    (∀ (text : Str) (c : Str), c ∈ chunkText text →
        ∃ w, w ≠ [] ∧ (∀ s ∈ w, s ∈ splitIntoSentences text) ∧ c = joinSp w) ∧
      chunkText longSentence = [longSentence] ∧
      maxChunkSize < estimateTokens longSentence := by
  refine ⟨?_, ?_, ?_⟩
  · intro text c hc
    rcases List.mem_map.mp hc with ⟨w, hw, hwc⟩
    exact ⟨w, (chunkWindows_spec text).2.2.1 w hw,
      fun s hs => (chunkWindows_spec text).2.2.2 w hw s hs, hwc.symm⟩
  · decide
  · decide

/-- C10 witness: the whole-sentence decomposition of a concrete chunk. -/
theorem chunker_whole_sentences_witness :
    ∃ w, w ≠ [] ∧ (∀ s ∈ w, s ∈ splitIntoSentences (str "hello world.")) ∧
      str "hello world" = joinSp w :=
  chunker_whole_sentences.1 (str "hello world.") (str "hello world") (by decide)

/-! ## Vector / keyword / hybrid search (`vector-search.ts`) -/

/-- One stored chunk of a document (`chunks` array element). -/
structure StoredChunk where
  text : Str
  «section» : Str
deriving DecidableEq, Repr, Inhabited

/-- One stored `AuditFinding` document as the pipelines read it. -/
structure StoredDoc where
  id : Str
  title : Str
  impact : Str
  protocol_name : Str
  firm_name : Str
  source_link : Str
  summary : Str
  chunks : List StoredChunk
deriving DecidableEq, Repr, Inhabited

/-- `SearchOptions.filters`. -/
structure Filters where
  impact : Option (List Str)
  protocol : Option (List Str)
  firm : Option (List Str)
deriving DecidableEq, Repr, Inhabited

/-- `SearchOptions` with its optional fields. -/
structure SearchOptions where
  topK : Option ℕ
  minScore : Option ℚ
  filters : Option Filters
deriving DecidableEq, Repr, Inhabited

/-- The external collaborators: the embedding provider and the store's
similarity / text indexes.  `vectorIndex` is `$vectorSearch` (query
vector, `numCandidates`, `limit`); `textIndex` is the `$text` match with
its `textScore`.  Both may answer arbitrarily. -/
structure StoreEnv where
  generateEmbedding : Str → List ℚ
  vectorIndex : List ℚ → ℕ → ℕ → List (StoredDoc × ℚ)
  textIndex : Str → List (StoredDoc × ℚ)

/-- One allow-list condition: applied only when the list is present and
non-empty (`filters.impact?.length`). -/
def filterCond (o : Option (List Str)) (v : Str) : Bool :=
  match o with
  | some l => if l.isEmpty then true else decide (v ∈ l)
  | none => true

/-- The `$match` conditions built by `buildFilterStages` /
`keywordSearch`. -/
def matchesFilters (filters : Filters) (d : StoredDoc) : Bool :=
  filterCond filters.impact d.impact &&
    filterCond filters.protocol d.protocol_name &&
    filterCond filters.firm d.firm_name

/-- `$sort {score: -1}` ordering on unwound chunk rows. -/
def vrowGE (a b : StoredDoc × StoredChunk × ℚ) : Prop := b.2.2 ≤ a.2.2

instance : DecidableRel vrowGE :=
  fun a b => inferInstanceAs (Decidable (b.2.2 ≤ a.2.2))

instance : IsTotal (StoredDoc × StoredChunk × ℚ) vrowGE :=
  ⟨fun a b => le_total b.2.2 a.2.2⟩

instance : IsTrans (StoredDoc × StoredChunk × ℚ) vrowGE :=
  ⟨fun _ _ _ h1 h2 => le_trans h2 h1⟩

/-- `$sort {score: -1}` ordering on scored documents. -/
def krowGE (a b : StoredDoc × ℚ) : Prop := b.2 ≤ a.2

instance : DecidableRel krowGE :=
  fun a b => inferInstanceAs (Decidable (b.2 ≤ a.2))

instance : IsTotal (StoredDoc × ℚ) krowGE :=
  ⟨fun a b => le_total b.2 a.2⟩

instance : IsTrans (StoredDoc × ℚ) krowGE :=
  ⟨fun _ _ _ h1 h2 => le_trans h2 h1⟩

/-- The vector pipeline after the `$vectorSearch` stage
(`search`, lines 62–99): `$unwind` the chunks, apply the metadata
`$match` stages, drop rows under `minScore`, `$sort` descending,
`$project`, `$limit topK`. -/
def vectorPost (raw : List (StoredDoc × ℚ)) (options : SearchOptions) : List SearchResult :=
  let topK := options.topK.getD 5
  let minScore := options.minScore.getD (7 / 10)
  let filters := options.filters.getD ⟨none, none, none⟩
  let rows := raw.flatMap (fun p => p.1.chunks.map (fun c => (p.1, c, p.2)))
  let rows := rows.filter (fun r => matchesFilters filters r.1)
  let rows := rows.filter (fun r => decide (minScore ≤ r.2.2))
  let rows := rows.insertionSort vrowGE
  (rows.map (fun r =>
    ({ id := r.1.id, text := r.2.1.text, score := r.2.2,
       metadata := ⟨r.1.protocol_name, r.1.impact, r.1.title, r.2.1.«section»,
         r.1.source_link, r.1.firm_name⟩ } : SearchResult))).take topK

/-- `VectorSearchService.search` (lines 37–106): embed the query, request
`topK * 10` raw candidates (limit `topK`) from the similarity index, then
post-process. -/
def search (env : StoreEnv) (query : Str) (options : SearchOptions) : List SearchResult :=
  vectorPost
    (env.vectorIndex (env.generateEmbedding query)
      (options.topK.getD 5 * 10) (options.topK.getD 5))
    options

/-- The rows produced by `$unwind {path: chunks,
preserveNullAndEmptyArrays: true}` for one matched document. -/
def keywordRows (p : StoredDoc × ℚ) : List (StoredDoc × Option StoredChunk × ℚ) :=
  if p.1.chunks.isEmpty then [(p.1, none, p.2)]
  else p.1.chunks.map (fun c => (p.1, some c, p.2))

/-- The keyword pipeline after the `$text` match (`keywordSearch`,
lines 158–185): filter, `$sort` descending by text score, `$limit topK`
(documents), unwind preserving chunkless documents, `$project` with the
`$ifNull` fallbacks and the score divided by 10. -/
def keywordPost (raw : List (StoredDoc × ℚ)) (options : SearchOptions) : List SearchResult :=
  let topK := options.topK.getD 5
  let filters := options.filters.getD ⟨none, none, none⟩
  let docs := raw.filter (fun p => matchesFilters filters p.1)
  let docs := docs.insertionSort krowGE
  let docs := docs.take topK
  let rows := docs.flatMap keywordRows
  rows.map (fun r =>
    ({ id := r.1.id,
       text := match r.2.1 with | some c => c.text | none => r.1.summary,
       score := r.2.2 / 10,
       metadata := ⟨r.1.protocol_name, r.1.impact, r.1.title,
         (match r.2.1 with | some c => c.«section» | none => str "summary"),
         r.1.source_link, r.1.firm_name⟩ } : SearchResult))

/-- `keywordSearch` (lines 137–188). -/
def keywordSearch (env : StoreEnv) (query : Str) (options : SearchOptions) :
    List SearchResult :=
  keywordPost (env.textIndex query) options

/-- `hybridSearch` (lines 111–132): vector search with
`topK' = Math.ceil(topK * 1.5)` spread over the caller's options, keyword
search with the caller's options, then RRF fusion truncated to `topK`. -/
def hybridSearch (env : StoreEnv) (query : Str) (options : SearchOptions) :
    List SearchResult :=
  let topK := options.topK.getD 5
  let vectorResults := search env query
    { options with topK := some (Nat.ceil ((topK : ℚ) * (3 / 2))) }
  let keywordResults := keywordSearch env query options
  mergeAndRerankResults vectorResults keywordResults topK

lemma ceil_three_halves (k : ℕ) : Nat.ceil ((k : ℚ) * (3 / 2)) = (3 * k + 1) / 2 := by
  rcases Nat.eq_zero_or_pos k with hk | hk
  · subst hk; simp
  · have hmod := Nat.div_add_mod (3 * k + 1) 2
    set n := (3 * k + 1) / 2 with hn
    have hr2 : (3 * k + 1) % 2 < 2 := Nat.mod_lt _ (by norm_num)
    have hne : n ≠ 0 := by omega
    rw [Nat.ceil_eq_iff hne]
    constructor
    · rw [show ((k : ℚ) * (3 / 2)) = ((3 * k : ℕ) : ℚ) / 2 by push_cast; ring]
      rw [lt_div_iff₀ (by norm_num : (0 : ℚ) < 2)]
      have h1 : (n - 1) * 2 < 3 * k := by omega
      exact_mod_cast h1
    · rw [show ((k : ℚ) * (3 / 2)) = ((3 * k : ℕ) : ℚ) / 2 by push_cast; ring]
      rw [div_le_iff₀ (by norm_num : (0 : ℚ) < 2)]
      have h2 : 3 * k ≤ n * 2 := by omega
      exact_mod_cast h2

/-- C2: `hybridSearch` runs the vector channel with
`topK' = ⌈topK × 1.5⌉ = (3·topK + 1) / 2` spread over the caller's other
options, the keyword channel with the caller's original options, and
returns the RRF fusion of the two lists truncated to the caller's `topK`
(default 5). -/
theorem hybrid_fanout_composition (env : StoreEnv) (query : Str) (options : SearchOptions) :
    hybridSearch env query options =
      mergeAndRerankResults
        (search env query { options with topK := some ((3 * options.topK.getD 5 + 1) / 2) })
        (keywordSearch env query options)
        (options.topK.getD 5) ∧
    (hybridSearch env query options).length ≤ options.topK.getD 5 := by
  constructor
  · show mergeAndRerankResults
        (search env query { options with topK := some (Nat.ceil ((options.topK.getD 5 : ℚ) * (3 / 2))) })
        (keywordSearch env query options) (options.topK.getD 5) = _
    rw [ceil_three_halves]
  · show (mergeAndRerankResults _ _ (options.topK.getD 5)).length ≤ options.topK.getD 5
    unfold mergeAndRerankResults
    simp only [List.length_map]
    exact List.length_take_le _ _

/-- C6: the vector channel requests `10 × topK` raw candidates from the
similarity index, yet — for any store answer — returns at most `topK`
results, every returned candidate scores at least `minScore`
(default 0.7, inclusive), a supplied non-empty impact allow-list confines
every returned candidate's impact, and results are ordered by descending
score. -/
theorem vector_search_contract (env : StoreEnv) (query : Str) (options : SearchOptions) :
    (search env query options =
      vectorPost (env.vectorIndex (env.generateEmbedding query)
        (10 * options.topK.getD 5) (options.topK.getD 5)) options) ∧
    ∀ raw : List (StoredDoc × ℚ),
      ((vectorPost raw options).length ≤ options.topK.getD 5) ∧
      (∀ r ∈ vectorPost raw options, options.minScore.getD (7 / 10) ≤ r.score) ∧
      (∀ l, (options.filters.getD ⟨none, none, none⟩).impact = some l → l ≠ [] →
        ∀ r ∈ vectorPost raw options, r.metadata.impact ∈ l) ∧
      List.Sorted (fun a b : ℚ => b ≤ a)
        ((vectorPost raw options).map (fun r => r.score)) := by
  constructor
  · unfold search
    rw [Nat.mul_comm]
  · intro raw
    simp only [vectorPost]
    set filters := options.filters.getD ⟨none, none, none⟩ with hfilters
    set rows0 := raw.flatMap (fun p => p.1.chunks.map (fun c => (p.1, c, p.2))) with hrows0
    set rows1 := rows0.filter (fun r => matchesFilters filters r.1) with hrows1
    set rows2 := rows1.filter
      (fun r => decide (options.minScore.getD (7 / 10) ≤ r.2.2)) with hrows2
    set rows3 := rows2.insertionSort vrowGE with hrows3
    have hmem : ∀ r ∈ (rows3.map (fun r =>
        ({ id := r.1.id, text := r.2.1.text, score := r.2.2,
           metadata := ⟨r.1.protocol_name, r.1.impact, r.1.title, r.2.1.«section»,
             r.1.source_link, r.1.firm_name⟩ } : SearchResult))).take (options.topK.getD 5),
        ∃ row ∈ rows2, r =
          { id := row.1.id, text := row.2.1.text, score := row.2.2,
            metadata := ⟨row.1.protocol_name, row.1.impact, row.1.title, row.2.1.«section»,
              row.1.source_link, row.1.firm_name⟩ } := by
      intro r hr
      have hr2 := List.take_subset _ _ hr
      rcases List.mem_map.mp hr2 with ⟨row, hrow, hproj⟩
      exact ⟨row, (List.perm_insertionSort vrowGE rows2).subset hrow, hproj.symm⟩
    refine ⟨?_, ?_, ?_, ?_⟩
    · exact List.length_take_le _ _
    · intro r hr
      rcases hmem r hr with ⟨row, hrow, hproj⟩
      have := List.of_mem_filter hrow
      rw [hproj]
      simpa using this
    · intro l hl hlne r hr
      rcases hmem r hr with ⟨row, hrow, hproj⟩
      have hrow1 : row ∈ rows1 := List.mem_of_mem_filter hrow
      have hmf := List.of_mem_filter hrow1
      rw [matchesFilters] at hmf
      simp only [Bool.and_eq_true] at hmf
      have himp : filterCond filters.impact row.1.impact = true := hmf.1.1
      rw [hl, filterCond] at himp
      rw [if_neg (by simpa using hlne)] at himp
      rw [hproj]
      simpa using himp
    · rw [List.map_take, List.map_map]
      refine List.Pairwise.sublist (List.take_sublist _ _) ?_
      rw [List.pairwise_map]
      exact List.sorted_insertionSort vrowGE rows2

lemma keywordRows_score (p : StoredDoc × ℚ) : ∀ r ∈ keywordRows p, r.2.2 = p.2 := by
  intro r hr
  unfold keywordRows at hr
  by_cases h : p.1.chunks.isEmpty
  · rw [if_pos h] at hr
    simp only [List.mem_singleton] at hr
    rw [hr]
  · rw [if_neg h] at hr
    rcases List.mem_map.mp hr with ⟨c, _, hc⟩
    rw [← hc]

lemma keywordRows_doc (p : StoredDoc × ℚ) : ∀ r ∈ keywordRows p, r.1 = p.1 := by
  intro r hr
  unfold keywordRows at hr
  by_cases h : p.1.chunks.isEmpty
  · rw [if_pos h] at hr
    simp only [List.mem_singleton] at hr
    rw [hr]
  · rw [if_neg h] at hr
    rcases List.mem_map.mp hr with ⟨c, _, hc⟩
    rw [← hc]

lemma sorted_flatMap_keywordRows (docs : List (StoredDoc × ℚ))
    (hs : List.Sorted krowGE docs) :
    List.Sorted (fun a b : ℚ => b ≤ a)
      ((docs.flatMap keywordRows).map (fun r => r.2.2)) := by
  induction docs with
  | nil => simp
  | cons d rest ih =>
      rw [List.flatMap_cons, List.map_append]
      show List.Pairwise (fun a b : ℚ => b ≤ a) _
      rw [List.pairwise_append]
      refine ⟨?_, ih hs.of_cons, ?_⟩
      · rw [List.pairwise_iff_forall_sublist]
        intro a b hab
        have hmemc : ∀ x ∈ (keywordRows d).map (fun r => r.2.2), x = d.2 := by
          intro x hx
          rcases List.mem_map.mp hx with ⟨row, hrow, hxe⟩
          rw [← hxe]
          exact keywordRows_score d row hrow
        have ha : a ∈ (keywordRows d).map (fun r => r.2.2) := hab.subset (by simp)
        have hb : b ∈ (keywordRows d).map (fun r => r.2.2) := hab.subset (by simp)
        rw [hmemc a ha, hmemc b hb]
      · intro a ha b hb
        rcases List.mem_map.mp ha with ⟨rowa, hrowa, hae⟩
        rcases List.mem_map.mp hb with ⟨rowb, hrowb, hbe⟩
        rcases List.mem_flatMap.mp hrowb with ⟨p, hp, hrp⟩
        have h1 : rowb.2.2 = p.2 := keywordRows_score p rowb hrp
        have h2 : rowa.2.2 = d.2 := keywordRows_score d rowa hrowa
        have h3 : krowGE d p := (List.pairwise_cons.mp hs).1 p hp
        rw [← hae, ← hbe, h1, h2]
        exact h3

/-- C7 (amended): every keyword candidate carries the store's native
lexical score divided by 10 and originates from one of at most `topK`
matched documents (the `$limit` applies to documents, before the chunk
unwind, so the *entry* count can exceed `topK`); a matched document with
no chunk data yields the document summary as text with the sentinel
section name `"summary"`; and the returned list is ordered descending by
normalized score. -/
theorem keyword_search_contract (env : StoreEnv) (query : Str) (options : SearchOptions) :
    (keywordSearch env query options = keywordPost (env.textIndex query) options) ∧
    ∀ raw : List (StoredDoc × ℚ),
      (∀ r ∈ keywordPost raw options,
        ∃ p ∈ (((raw.filter (fun p =>
            matchesFilters (options.filters.getD ⟨none, none, none⟩) p.1)).insertionSort
              krowGE).take (options.topK.getD 5)),
          r.id = p.1.id ∧ r.score = p.2 / 10 ∧
          (p.1.chunks = [] → r.text = p.1.summary ∧
            r.metadata.«section» = str "summary")) ∧
      ((((raw.filter (fun p =>
          matchesFilters (options.filters.getD ⟨none, none, none⟩) p.1)).insertionSort
            krowGE).take (options.topK.getD 5)).length ≤ options.topK.getD 5) ∧
      List.Sorted (fun a b : ℚ => b ≤ a)
        ((keywordPost raw options).map (fun r => r.score)) := by
  refine ⟨rfl, ?_⟩
  intro raw
  simp only [keywordPost]
  set docs := (((raw.filter (fun p =>
      matchesFilters (options.filters.getD ⟨none, none, none⟩) p.1)).insertionSort
        krowGE).take (options.topK.getD 5)) with hdocs
  refine ⟨?_, List.length_take_le _ _, ?_⟩
  · intro r hr
    rcases List.mem_map.mp hr with ⟨row, hrow, hproj⟩
    rcases List.mem_flatMap.mp hrow with ⟨p, hp, hrp⟩
    refine ⟨p, hp, ?_, ?_, ?_⟩
    · rw [← hproj]
      show row.1.id = p.1.id
      rw [keywordRows_doc p row hrp]
    · rw [← hproj]
      show row.2.2 / 10 = p.2 / 10
      rw [keywordRows_score p row hrp]
    · intro hchunks
      have hempty : p.1.chunks.isEmpty = true := by simp [hchunks]
      have hrow2 : row = (p.1, none, p.2) := by
        unfold keywordRows at hrp
        rw [if_pos hempty] at hrp
        simpa using hrp
      constructor
      · rw [← hproj, hrow2]
      · rw [← hproj, hrow2]
  · have hsorted : List.Sorted krowGE docs :=
      List.Pairwise.sublist (List.take_sublist _ _)
        (List.sorted_insertionSort krowGE _)
    have hbase := sorted_flatMap_keywordRows docs hsorted
    rw [List.map_map]
    have heq : ((docs.flatMap keywordRows).map
        ((fun r => r.score) ∘ (fun r =>
          ({ id := r.1.id,
             text := match r.2.1 with | some c => c.text | none => r.1.summary,
             score := r.2.2 / 10,
             metadata := ⟨r.1.protocol_name, r.1.impact, r.1.title,
               (match r.2.1 with | some c => c.«section» | none => str "summary"),
               r.1.source_link, r.1.firm_name⟩ } : SearchResult)))) =
        ((docs.flatMap keywordRows).map (fun r => r.2.2)).map (fun q => q / 10) := by
      rw [List.map_map]
      rfl
    rw [heq]
    show List.Pairwise (fun a b : ℚ => b ≤ a) _
    rw [List.pairwise_map]
    refine List.Pairwise.imp ?_ hbase
    intro a b h
    show b / 10 ≤ a / 10
    linarith

/-! ## Concrete store fixtures -/

def docHigh : StoredDoc :=
  ⟨str "V1", str "T", str "HIGH", str "P", str "F", str "L", str "S",
    [⟨str "chunk high", str "sec"⟩]⟩

def docLow : StoredDoc :=
  ⟨str "V2", str "T", str "LOW", str "P", str "F", str "L", str "S",
    [⟨str "chunk low", str "sec"⟩]⟩

/-- A matched document with two chunks. -/
def docTwoChunks : StoredDoc :=
  ⟨str "K1", str "T", str "HIGH", str "P", str "F", str "L", str "S",
    [⟨str "c1", str "s1"⟩, ⟨str "c2", str "s2"⟩]⟩

/-- A matched document with no chunk data. -/
def docNoChunks : StoredDoc :=
  ⟨str "K2", str "T", str "HIGH", str "P", str "F", str "L", str "the summary", []⟩

def optionsImpact : SearchOptions :=
  ⟨some 5, some (1 / 2), some ⟨some [str "HIGH", str "CRITICAL"], none, none⟩⟩

def optionsOne : SearchOptions := ⟨some 1, none, none⟩

def envVec : StoreEnv :=
  ⟨fun _ => [], fun _ _ _ => [(docHigh, 9 / 10), (docLow, 8 / 10)], fun _ => []⟩

def envTwoChunks : StoreEnv :=
  ⟨fun _ => [], fun _ _ _ => [], fun _ => [(docTwoChunks, 9)]⟩

def envNoChunks : StoreEnv :=
  ⟨fun _ => [], fun _ _ _ => [], fun _ => [(docNoChunks, 9)]⟩

/-- C6 witness: with the `{HIGH, CRITICAL}` allow-list supplied, the one
returned candidate of a concrete run carries an allowed impact. -/
theorem vector_search_contract_witness :
    (⟨str "V1", str "chunk high", 9 / 10,
      ⟨str "P", str "HIGH", str "T", str "sec", str "L", str "F"⟩⟩ :
        SearchResult).metadata.impact ∈ [str "HIGH", str "CRITICAL"] :=
  ((vector_search_contract envVec (str "q") optionsImpact).2
      [(docHigh, 9 / 10), (docLow, 8 / 10)]).2.2.1
    [str "HIGH", str "CRITICAL"] rfl (by decide) _
    (by
      norm_num [vectorPost, matchesFilters, filterCond, docHigh, docLow,
        optionsImpact, str, List.insertionSort, List.orderedInsert, vrowGE,
        List.filter_cons, List.filter_nil])

/-- C7 counterexample: one matched document holding two chunks with
`topK = 1` yields two entries — the keyword result list is not truncated
to `topK` entries. -/
theorem keyword_topk_truncation_cex :
    (keywordSearch envTwoChunks (str "q") optionsOne).length = 2 ∧
      ¬ ((keywordSearch envTwoChunks (str "q") optionsOne).length ≤ 1) := by
  have h : (keywordSearch envTwoChunks (str "q") optionsOne).length = 2 := by
    norm_num [keywordSearch, keywordPost, keywordRows, matchesFilters, filterCond,
      envTwoChunks, docTwoChunks, optionsOne, str, List.insertionSort,
      List.orderedInsert, krowGE]
  exact ⟨h, by rw [h]; norm_num⟩

/-- C7 witness: a chunkless matched document falls back to the summary
text and the sentinel section name, with the native score divided by 10. -/
theorem keyword_search_contract_witness :
    ∃ p ∈ ((([(docNoChunks, (9 : ℚ))].filter (fun p =>
        matchesFilters (optionsOne.filters.getD ⟨none, none, none⟩) p.1)).insertionSort
          krowGE).take (optionsOne.topK.getD 5)),
      (⟨str "K2", str "the summary", 9 / 10,
        ⟨str "P", str "HIGH", str "T", str "summary", str "L", str "F"⟩⟩ :
          SearchResult).id = p.1.id ∧
      (⟨str "K2", str "the summary", 9 / 10,
        ⟨str "P", str "HIGH", str "T", str "summary", str "L", str "F"⟩⟩ :
          SearchResult).score = p.2 / 10 ∧
      (p.1.chunks = [] →
        (⟨str "K2", str "the summary", 9 / 10,
          ⟨str "P", str "HIGH", str "T", str "summary", str "L", str "F"⟩⟩ :
            SearchResult).text = p.1.summary ∧
        (⟨str "K2", str "the summary", 9 / 10,
          ⟨str "P", str "HIGH", str "T", str "summary", str "L", str "F"⟩⟩ :
            SearchResult).metadata.«section» = str "summary") :=
  ((keyword_search_contract envNoChunks (str "q") optionsOne).2
      [(docNoChunks, 9)]).1 _
    (by
      norm_num [keywordPost, keywordRows, matchesFilters, filterCond,
        docNoChunks, optionsOne, str, List.insertionSort, List.orderedInsert, krowGE])
